import Mathlib

/-!
# chan_watcher: a dynamic multiplexer over Go channels

A shallow embedding of `chan_watcher.go` (package `chan_watcher`).

* Go `interface{}` values are modelled by `Iface`, which keeps what the package can
  observe through `reflect`: whether the value is the nil interface, a channel (with its
  direction and an identity) or something whose kind is not `reflect.Chan`.
* A non-nil `Callback` is an abstract identifier; what a callback returns when it is
  invoked is supplied by the environment (`invoke`), as is the outcome of
  `reflect.Select` (`chosen`, `recv`, `recvOk`).
* `sync.Once` is the flag `done`; the effect of `go mcw.run()` is the counter `running`.
* The mutex sections of `run` only touch table positions that `AddChan` never touches
  (`AddChan` appends at the tails of `chanVal` and `waiting`), so one loop iteration is
  modelled as one function from state to state, returning the callback invocations it made.
* A Go panic (index out of range, call of a nil func) is the result `none`.
-/

namespace ChanWatcherModel

/-! ## Data model -/

/-- Go `error` values that can flow through this package; `nil` is `Option.none`. -/
inductive GoError
  | ErrParam
  | ErrNotChan
  | ErrNotReceivableChan
  | ErrReceiverFull
  | ErrExplictQuit
  | other (code : Nat)
  deriving DecidableEq, Repr

/-- Direction of a channel type, `reflect.ChanDir`. -/
inductive ChanDir
  | RecvDir
  | SendDir
  | BothDir
  deriving DecidableEq, Repr

/-- Bit pattern of a `reflect.ChanDir`: `RecvDir = 1`, `SendDir = 2`, `BothDir = 3`. -/
def ChanDir.bits : ChanDir → Nat
  | .RecvDir => 1
  | .SendDir => 2
  | .BothDir => 3

/-- A Go `interface{}` value as seen by this package: the nil interface, a channel value,
or a value whose kind is not `reflect.Chan`. In `chan dir id`, `dir` is the direction of the
static channel type and `id` identifies the channel the value refers to, `0` standing for
the nil channel (`var ch chan T`). An interface holding a nil channel is not the nil
interface: Go's `c == nil` is false for it. -/
inductive Iface
  | nil
  | chan (dir : ChanDir) (id : Nat)
  | value (n : Nat)
  deriving DecidableEq, Repr

/-- The part of `reflect.Kind` the package looks at. -/
inductive Kind
  | Invalid
  | Chan
  | Other
  deriving DecidableEq, Repr

/-- Result of `reflect.TypeOf(c).Kind()`; the nil interface has no type. -/
def kindOf : Iface → Kind
  | .nil => .Invalid
  | .chan _ _ => .Chan
  | .value _ => .Other

/-- Result of `reflect.TypeOf(c).ChanDir()` as a bit pattern (only asked of channels). -/
def chanDirOf : Iface → Nat
  | .chan dir _ => dir.bits
  | _ => 0

/-- A non-nil callback function value, identified by a number. -/
abbrev Callback := Nat

/-- The Go struct `Event`. -/
structure Event where
  Val : Iface
  Ok : Bool
  P : Iface
  deriving DecidableEq, Repr

/-- The Go struct `Chan`: callback parameter and callback (`none` is the nil func). -/
structure Chan where
  p : Iface
  fn : Option Callback
  deriving DecidableEq, Repr

/-- The directions of `reflect.SelectCase` (`reflect.SelectDir`). -/
inductive SelectDir
  | SelectSend
  | SelectRecv
  | SelectDefault
  deriving DecidableEq, Repr

/-- The Go struct `reflect.SelectCase`, without the unused `Send` field. The zero
`reflect.Value` is `Iface.nil`. -/
structure SelectCase where
  Dir : SelectDir
  Chan : Iface
  deriving DecidableEq, Repr

/-- The Go struct `ChanWatcher`. `done` is the state of the embedded `sync.Once`,
`running` counts the executions of `go mcw.run()`. The mutex carries no data. -/
structure ChanWatcher where
  done : Bool := false
  running : Nat := 0
  chanVal : List Chan := []
  chans : List SelectCase := []
  waiting : List SelectCase := []
  deriving DecidableEq, Repr

/-- The zero-value `ChanWatcher`. -/
def zeroWatcher : ChanWatcher := {}

/-- The zero value of `Chan`, as produced by `make([]Chan, 1, 64)`. -/
def zeroChan : Chan := { p := .nil, fn := none }

/-- The case `reflect.SelectCase{Dir: reflect.SelectDefault}`. -/
def defaultCase : SelectCase := { Dir := .SelectDefault, Chan := .nil }

/-- The case `reflect.SelectCase{Dir: reflect.SelectRecv, Chan: reflect.ValueOf(c)}`. -/
def recvCase (c : Iface) : SelectCase := { Dir := .SelectRecv, Chan := c }

/-! ## `AddChan` -/

/-- The body handed to `mcw.Do` together with the once-guard of `sync.Once`. -/
def onceInit (mcw : ChanWatcher) : ChanWatcher :=
  if mcw.done then mcw
  else
    { mcw with
      done := true
      chanVal := List.replicate 1 zeroChan
      chans := [] ++ [defaultCase]
      running := mcw.running + 1 }

/-- The method `ChanWatcher.AddChan`: the returned error and the watcher afterwards. -/
def AddChan (mcw : ChanWatcher) (c : Iface) (fn : Option Callback) (p : Iface) :
    Option GoError × ChanWatcher :=
  if c = Iface.nil ∨ fn = none then (some .ErrParam, mcw)
  else if kindOf c ≠ Kind.Chan then (some .ErrNotChan, mcw)
  else if chanDirOf c &&& ChanDir.RecvDir.bits = 0 then (some .ErrNotReceivableChan, mcw)
  else
    let mcw := onceInit mcw
    if mcw.chans.length + mcw.waiting.length + 1 ≥ 65535 then (some .ErrReceiverFull, mcw)
    else
      (none,
        { mcw with
          chanVal := mcw.chanVal ++ [{ fn := fn, p := p }]
          waiting := mcw.waiting ++ [recvCase c] })

/-! ## `run` -/

/-- One callback invocation: the case `c` that the wait selected, the callback, the event
handed to it, and the watcher's tables at the moment of the call. -/
structure Call where
  src : SelectCase
  fn : Callback
  ev : Event
  seen : ChanWatcher
  deriving DecidableEq, Repr

/-- What the environment answers when a callback is invoked with an event. -/
abbrev Invoke := Callback → Event → Option GoError

/-- The locked section at the end of `run`: drop position `chosen` from `chans` and from
`chanVal`, returning the dropped `Chan`. -/
def removeAt (mcw : ChanWatcher) (chosen : Nat) : Option (ChanWatcher × Chan) :=
  if chosen + 1 ≤ mcw.chans.length then
    let chans := mcw.chans.take chosen ++ mcw.chans.drop (chosen + 1)
    match mcw.chanVal[chosen]? with
    | none => none
    | some v =>
      some ({ mcw with
              chans := chans
              chanVal := mcw.chanVal.take chosen ++ mcw.chanVal.drop (chosen + 1) }, v)
  else none

/-- One iteration of the loop in `ChanWatcher.run`, for the outcome
`(chosen, recv, recvOk)` of `reflect.Select(mcw.chans)`. Returns the watcher afterwards
and the callback invocations made, oldest first. -/
def runIter (invoke : Invoke) (mcw : ChanWatcher) (chosen : Nat) (recv : Iface)
    (recvOk : Bool) : Option (ChanWatcher × List Call) :=
  match mcw.chans[chosen]? with
  | none => none
  | some c =>
    if c.Dir = SelectDir.SelectDefault then
      if mcw.waiting.length > 0 then
        some ({ mcw with chans := mcw.chans ++ mcw.waiting, waiting := [] }, [])
      else some (mcw, [])
    else if recvOk then
      match mcw.chanVal[chosen]? with
      | none => none
      | some v =>
        match v.fn with
        | none => none
        | some f =>
          let ev : Event := { Val := recv, Ok := recvOk, P := v.p }
          match invoke f ev with
          | none => some (mcw, [{ src := c, fn := f, ev := ev, seen := mcw }])
          | some _ =>
            match removeAt mcw chosen with
            | none => none
            | some (mcw1, _) => some (mcw1, [{ src := c, fn := f, ev := ev, seen := mcw }])
    else
      match removeAt mcw chosen with
      | none => none
      | some (mcw1, v) =>
        match v.fn with
        | none => none
        | some f =>
          let ev : Event := { Val := recv, Ok := recvOk, P := v.p }
          some (mcw1, [{ src := c, fn := f, ev := ev, seen := mcw1 }])

/-! ## Executions -/

/-- The argument triple of an `AddChan` call. -/
structure Registration where
  c : Iface
  fn : Option Callback
  p : Iface
  deriving DecidableEq, Repr

/-- One thing that happens to a watcher: a call of `AddChan`, or one iteration of `run`
with the outcome of the wait and the answers of the callbacks. -/
inductive Action
  | add (c : Iface) (fn : Option Callback) (p : Iface)
  | iter (chosen : Nat) (recv : Iface) (recvOk : Bool) (invoke : Invoke)

/-- A watcher together with its history: the `AddChan` calls that returned nil and the
callback invocations made so far (both oldest first). -/
structure World where
  mcw : ChanWatcher := {}
  regs : List Registration := []
  calls : List Call := []
  deriving DecidableEq, Repr

/-- The world before anything happened: the zero-value watcher. -/
def World.init : World := {}

/-- The effect of one action. An iteration is possible only once `run` has been started;
`none` means the action cannot happen or the loop panicked. -/
def World.step (w : World) : Action → Option World
  | .add c fn p =>
    let r := AddChan w.mcw c fn p
    some { mcw := r.2
           regs := if r.1 = none then w.regs ++ [{ c := c, fn := fn, p := p }] else w.regs
           calls := w.calls }
  | .iter chosen recv recvOk invoke =>
    if w.mcw.running = 0 then none
    else
      match runIter invoke w.mcw chosen recv recvOk with
      | none => none
      | some (mcw1, cs) => some { mcw := mcw1, regs := w.regs, calls := w.calls ++ cs }

/-- The effect of a sequence of actions. -/
def World.exec (w : World) : List Action → Option World
  | [] => some w
  | a :: as =>
    match w.step a with
    | none => none
    | some w1 => w1.exec as

/-- Worlds reachable from the zero-value watcher by `AddChan` calls and loop iterations. -/
def Reachable (w : World) : Prop := ∃ acts, World.init.exec acts = some w

/-- Number of registered sources: pending plus active, not counting the idle slot. -/
def registered (mcw : ChanWatcher) : Nat := (mcw.chans.length - 1) + mcw.waiting.length

/-- The three argument checks at the head of `AddChan` all pass. -/
def validArgs (c : Iface) (fn : Option Callback) : Bool :=
  !(decide (c = Iface.nil ∨ fn = none)) && !(decide (kindOf c ≠ Kind.Chan)) &&
    !(decide (chanDirOf c &&& ChanDir.RecvDir.bits = 0))

/-- An action is an `AddChan` call whose arguments pass the three argument checks. -/
def Action.validAdd : Action → Bool
  | .add c fn _ => validArgs c fn
  | .iter _ _ _ _ => false

/-- The identity of the channel behind an interface value, if it is a channel. -/
def chanId : Iface → Option Nat
  | .chan _ id => some id
  | _ => none

/-- The select case that `AddChan` builds for a registration. -/
def Registration.toCase (r : Registration) : SelectCase := recvCase r.c

/-- The callback-table entry that `AddChan` builds for a registration. -/
def Registration.toChan (r : Registration) : Chan := { fn := r.fn, p := r.p }

/-- The registration recorded for an `AddChan` action. -/
def Action.toReg : Action → Registration
  | .add c fn p => { c := c, fn := fn, p := p }
  | .iter _ _ _ _ => { c := .nil, fn := none, p := .nil }

/-- Table alignment: before the first validated `AddChan` the world is untouched;
afterwards the loop runs once, the live registrations `act ++ pend` are a sublist of the
successful `AddChan` calls, the active table is the idle case followed by the cases of
`act`, the pending table holds the cases of `pend`, the callback table is the placeholder
followed by the entries of `act ++ pend`, and the tables stay below the capacity bound. -/
inductive Inv (w : World) : Prop
  | fresh : w.mcw = zeroWatcher → w.regs = [] → w.calls = [] → Inv w
  | started (act pend : List Registration) :
      w.mcw.done = true → w.mcw.running = 1 →
      w.mcw.chans = defaultCase :: act.map Registration.toCase →
      w.mcw.waiting = pend.map Registration.toCase →
      w.mcw.chanVal = zeroChan :: (act ++ pend).map Registration.toChan →
      (act ++ pend).Sublist w.regs →
      (∀ r ∈ w.regs, validArgs r.c r.fn = true) →
      w.mcw.chans.length + w.mcw.waiting.length < 65535 →
      Inv w

/-- The select case waits on the channel with identity `id`. -/
def SelectCase.onChan (id : Nat) (sc : SelectCase) : Bool := chanId sc.Chan == some id

/-- The registration names the channel with identity `id`. -/
def Registration.onChan (id : Nat) (r : Registration) : Bool := chanId r.c == some id

/-- The started watcher in which exactly the registrations `rs` are held, all of them
still pending. -/
def pendingOnly (rs : List Registration) : ChanWatcher :=
  { done := true
    running := 1
    chanVal := zeroChan :: rs.map Registration.toChan
    chans := [defaultCase]
    waiting := rs.map Registration.toCase }

/-- The nil channel of a channel type with direction `dir`, held in an interface. -/
def nilChan (dir : ChanDir) : Iface := .chan dir 0

/-- The interface value holds a nil channel. -/
def isNilChan : Iface → Bool
  | .chan _ id => id == 0
  | _ => false

/-- The invocation is a closure notification (`Ok = false`) for a case of channel `id`. -/
def Call.closureOf (id : Nat) (k : Call) : Bool := !k.ev.Ok && SelectCase.onChan id k.src

/-! ## Small concrete executions -/

/-- A receive-only channel, a bidirectional channel and a send-only channel. -/
def chA : Iface := .chan .RecvDir 5

def chB : Iface := .chan .BothDir 6

def chS : Iface := .chan .SendDir 7

/-- Callbacks that always return nil, resp. always return `ErrExplictQuit`. -/
def keepGoing : Invoke := fun _ _ => none

def quitNow : Invoke := fun _ _ => some GoError.ErrExplictQuit

/-- Register `chA` and `chB`, then let the loop take the idle branch once. -/
def demoActs : List Action :=
  [.add chA (some 1) (.value 10), .add chB (some 2) (.value 20), .iter 0 .nil false keepGoing]

/-- The world after `demoActs`: both sources active, nothing pending. -/
def demoWorld : World :=
  { mcw :=
      { done := true
        running := 1
        chanVal := [zeroChan, { p := .value 10, fn := some 1 }, { p := .value 20, fn := some 2 }]
        chans := [defaultCase, recvCase chA, recvCase chB]
        waiting := [] }
    regs := [{ c := chA, fn := some 1, p := .value 10 }, { c := chB, fn := some 2, p := .value 20 }]
    calls := [] }

/-- The watcher of `demoWorld` after `chA` was closed and removed. -/
def demoClosedMcw : ChanWatcher :=
  { done := true
    running := 1
    chanVal := [zeroChan, { p := .value 20, fn := some 2 }]
    chans := [defaultCase, recvCase chB]
    waiting := [] }

/-- The closure notification for `chA`. -/
def demoClosedCall : Call :=
  { src := recvCase chA, fn := 1, ev := { Val := .nil, Ok := false, P := .value 10 },
    seen := demoClosedMcw }

/-- The world after the loop saw `chA` closed in `demoWorld`. -/
def demoClosed : World :=
  { mcw := demoClosedMcw, regs := demoWorld.regs, calls := [demoClosedCall] }

/-- The world after one more value, `3`, was delivered from `chB`. -/
def demoLater : World :=
  { mcw := demoClosedMcw
    regs := demoWorld.regs
    calls := [demoClosedCall,
      { src := recvCase chB, fn := 2, ev := { Val := .value 3, Ok := true, P := .value 20 },
        seen := demoClosedMcw }] }

/-- A third channel, registered after the merge of `demoActs`, so that it is pending. -/
def chC : Iface := .chan .RecvDir 8

def demoPendingActs : List Action := demoActs ++ [.add chC (some 3) (.value 30)]

/-- The world after `demoPendingActs`: two active sources and one pending source. -/
def demoPending : World :=
  { mcw :=
      { done := true
        running := 1
        chanVal := [zeroChan, { p := .value 10, fn := some 1 }, { p := .value 20, fn := some 2 },
          { p := .value 30, fn := some 3 }]
        chans := [defaultCase, recvCase chA, recvCase chB]
        waiting := [recvCase chC] }
    regs := [{ c := chA, fn := some 1, p := .value 10 }, { c := chB, fn := some 2, p := .value 20 },
      { c := chC, fn := some 3, p := .value 30 }]
    calls := [] }

/-- A watcher at capacity: 65533 registrations of `chA`, all merged into the active
table. -/
def fullRegs : List Registration := List.replicate 65533 { c := chA, fn := some 1, p := .nil }

def fullActs : List Action :=
  List.replicate 65533 (Action.add chA (some 1) .nil) ++ [.iter 0 .nil false keepGoing]

def fullWorld : World :=
  { mcw :=
      { done := true
        running := 1
        chanVal := zeroChan :: fullRegs.map Registration.toChan
        chans := [defaultCase] ++ fullRegs.map Registration.toCase
        waiting := [] }
    regs := fullRegs
    calls := [] }

/-- Register `chA` twice with the same callback, then let the loop take the idle branch. -/
def dupActs : List Action :=
  [.add chA (some 1) (.value 10), .add chA (some 1) (.value 10), .iter 0 .nil false keepGoing]

/-- What is looked at in an invocation: the selected case, the callback and the event. -/
def Call.summary (k : Call) : SelectCase × Callback × Iface × Bool :=
  (k.src, k.fn, k.ev.Val, k.ev.Ok)

/-! ## Basic facts about the argument checks -/

theorem validArgs_iff (c : Iface) (fn : Option Callback) :
    validArgs c fn = true ↔
      ∃ d id f, c = Iface.chan d id ∧ d ≠ ChanDir.SendDir ∧ fn = some f := by
  cases c with
  | nil => simp [validArgs]
  | value n => simp [validArgs, kindOf]
  | chan d id =>
    cases fn with
    | none => simp [validArgs]
    | some f => cases d <;> simp [validArgs, kindOf, chanDirOf, ChanDir.bits]

theorem AddChan_of_valid (mcw : ChanWatcher) (c : Iface) (fn : Option Callback) (p : Iface)
    (h : validArgs c fn = true) :
    AddChan mcw c fn p =
      if (onceInit mcw).chans.length + (onceInit mcw).waiting.length + 1 ≥ 65535 then
        (some GoError.ErrReceiverFull, onceInit mcw)
      else
        (none,
          { onceInit mcw with
            chanVal := (onceInit mcw).chanVal ++ [{ fn := fn, p := p }]
            waiting := (onceInit mcw).waiting ++ [recvCase c] }) := by
  obtain ⟨d, id, f, rfl, hd, rfl⟩ := (validArgs_iff c fn).1 h
  cases d <;> simp_all [AddChan, kindOf, chanDirOf, ChanDir.bits]

theorem AddChan_of_invalid (mcw : ChanWatcher) (c : Iface) (fn : Option Callback) (p : Iface)
    (h : validArgs c fn = false) :
    (AddChan mcw c fn p).2 = mcw ∧ (AddChan mcw c fn p).1 ≠ none := by
  unfold validArgs at h
  unfold AddChan
  by_cases h1 : c = Iface.nil ∨ fn = none
  · simp [h1]
  · by_cases h2 : kindOf c ≠ Kind.Chan
    · simp [h1, h2]
    · by_cases h3 : chanDirOf c &&& ChanDir.RecvDir.bits = 0
      · simp [h1, h2, h3]
      · simp [h1, h2, h3] at h

/-! ## List facts used for the slice surgery of `run` -/

theorem map_eraseIdx_comm {α β : Type} (f : α → β) (l : List α) (i : Nat) :
    (l.map f).eraseIdx i = (l.eraseIdx i).map f := by
  induction l generalizing i with
  | nil => rfl
  | cons a t ih =>
    cases i with
    | zero => rfl
    | succ j => simp [ih]

theorem countP_eraseIdx_add {α : Type} (q : α → Bool) (l : List α) (i : Nat) (a : α)
    (h : l[i]? = some a) :
    (l.eraseIdx i).countP q + (if q a then 1 else 0) = l.countP q := by
  induction l generalizing i with
  | nil => simp at h
  | cons b t ih =>
    cases i with
    | zero =>
      simp at h
      subst h
      simp [List.countP_cons]
    | succ j =>
      simp at h
      have := ih j h
      simp [List.countP_cons]
      omega

/-! ## The locked sections of `run` -/

theorem removeAt_eq (mcw : ChanWatcher) (chosen : Nat) (v : Chan)
    (hc : chosen < mcw.chans.length) (hv : mcw.chanVal[chosen]? = some v) :
    removeAt mcw chosen =
      some ({ mcw with
              chans := mcw.chans.eraseIdx chosen
              chanVal := mcw.chanVal.eraseIdx chosen }, v) := by
  unfold removeAt
  have h1 : chosen + 1 ≤ mcw.chans.length := hc
  simp only [h1, if_true, hv, List.eraseIdx_eq_take_drop_succ]

/-- The result of an iteration that selected a receive case whose callback-table entry
holds the callback `f` and the parameter `p`. -/
theorem runIter_recv (invoke : Invoke) (mcw : ChanWatcher) (chosen : Nat) (recv : Iface)
    (recvOk : Bool) (c : Iface) (f : Callback) (p : Iface)
    (hc : mcw.chans[chosen]? = some (recvCase c))
    (hv : mcw.chanVal[chosen]? = some { p := p, fn := some f }) :
    runIter invoke mcw chosen recv recvOk =
      let erased : ChanWatcher :=
        { mcw with
          chans := mcw.chans.eraseIdx chosen
          chanVal := mcw.chanVal.eraseIdx chosen }
      let ev : Event := { Val := recv, Ok := recvOk, P := p }
      if recvOk then
        match invoke f ev with
        | none => some (mcw, [{ src := recvCase c, fn := f, ev := ev, seen := mcw }])
        | some _ => some (erased, [{ src := recvCase c, fn := f, ev := ev, seen := mcw }])
      else some (erased, [{ src := recvCase c, fn := f, ev := ev, seen := erased }]) := by
  have hlt : chosen < mcw.chans.length := by
    rcases Nat.lt_or_ge chosen mcw.chans.length with h | h
    · exact h
    · rw [List.getElem?_eq_none h] at hc
      cases hc
  have hrem := removeAt_eq mcw chosen _ hlt hv
  unfold runIter
  simp only [hc, hv, hrem, recvCase]
  cases recvOk with
  | true => simp
  | false => simp

/-- The result of an iteration that selected the idle case. -/
theorem runIter_default (invoke : Invoke) (mcw : ChanWatcher) (chosen : Nat) (recv : Iface)
    (recvOk : Bool) (hc : mcw.chans[chosen]? = some defaultCase) :
    runIter invoke mcw chosen recv recvOk =
      some ({ mcw with chans := mcw.chans ++ mcw.waiting, waiting := [] }, []) := by
  unfold runIter
  simp only [hc, defaultCase]
  cases hw : mcw.waiting with
  | nil =>
    simp
    cases mcw
    simp_all
  | cons a t => simp

/-! ## The alignment invariant -/

/-- In an aligned world, position `j + 1` of the active table and of the callback table
come from the same live registration. -/
theorem lookup_started (mcw : ChanWatcher) (act pend : List Registration) (j : Nat)
    (src : SelectCase)
    (hch : mcw.chans = defaultCase :: act.map Registration.toCase)
    (hcv : mcw.chanVal = zeroChan :: (act ++ pend).map Registration.toChan)
    (hsel : mcw.chans[j + 1]? = some src) :
    ∃ r, act[j]? = some r ∧ src = recvCase r.c ∧
      mcw.chanVal[j + 1]? = some { p := r.p, fn := r.fn } := by
  rw [hch] at hsel
  simp only [List.getElem?_cons_succ, List.getElem?_map] at hsel
  cases hr : act[j]? with
  | none => simp [hr] at hsel
  | some r =>
    simp [hr] at hsel
    refine ⟨r, rfl, ?_, ?_⟩
    · rw [← hsel]; rfl
    · have hj : j < act.length := by
        rcases Nat.lt_or_ge j act.length with h | h
        · exact h
        · rw [List.getElem?_eq_none h] at hr
          cases hr
      rw [hcv]
      simp only [List.getElem?_cons_succ, List.getElem?_map]
      rw [List.getElem?_append_left hj, hr]
      rfl

/-- In an aligned world, every non-idle position of the active table holds the
receive case of a registration whose callback and parameter sit at the same position of
the callback table. -/
theorem Inv.lookup {w : World} (hinv : Inv w) (i : Nat) (src : SelectCase) (hi : 1 ≤ i)
    (hsel : w.mcw.chans[i]? = some src) :
    ∃ r f, r ∈ w.regs ∧ r.fn = some f ∧ src = recvCase r.c ∧
      w.mcw.chanVal[i]? = some { p := r.p, fn := some f } := by
  cases hinv with
  | fresh h0 _ _ =>
    rw [h0] at hsel
    simp [zeroWatcher] at hsel
  | started act pend _ _ hch _ hcv hsub hval _ =>
    obtain ⟨j, rfl⟩ : ∃ j, i = j + 1 := ⟨i - 1, by omega⟩
    obtain ⟨r, hr, hsrc, hv⟩ := lookup_started w.mcw act pend j src hch hcv hsel
    have hmem : r ∈ w.regs :=
      hsub.subset (List.mem_append_left _ (List.getElem?_mem hr))
    obtain ⟨d, id, f, _, _, hf⟩ := (validArgs_iff r.c r.fn).1 (hval r hmem)
    exact ⟨r, f, hmem, hf, hsrc, by rw [hv, hf]⟩

theorem Inv.init : Inv World.init := Inv.fresh rfl rfl rfl

theorem Inv.step_add {w : World} (hinv : Inv w) (c : Iface) (fn : Option Callback)
    (p : Iface) (w1 : World) (h : w.step (.add c fn p) = some w1) : Inv w1 := by
  simp only [World.step, Option.some.injEq] at h
  subst h
  cases hv : validArgs c fn with
  | false =>
    obtain ⟨h2, h1⟩ := AddChan_of_invalid w.mcw c fn p hv
    simp only [h2, h1, if_false]
    cases hinv with
    | fresh a b c => exact Inv.fresh a b c
    | started act pend a b c d e f g h => exact Inv.started act pend a b c d e f g h
  | true =>
    rw [AddChan_of_valid w.mcw c fn p hv]
    cases hinv with
    | fresh h0 hr hc =>
      refine Inv.started [] [{ c := c, fn := fn, p := p }] ?_ ?_ ?_ ?_ ?_ ?_ ?_ ?_ <;>
        simp [h0, hr, zeroWatcher, onceInit, Registration.toCase, Registration.toChan, hv]
    | started act pend hd hrun hch hwt hcv hsub hval hcap =>
      have hinit : onceInit w.mcw = w.mcw := by simp [onceInit, hd]
      rw [hinit]
      by_cases hfull : w.mcw.chans.length + w.mcw.waiting.length + 1 ≥ 65535
      · simp only [hfull, if_true]
        exact Inv.started act pend hd hrun hch hwt hcv hsub hval hcap
      · simp only [hfull, if_false, if_true]
        refine Inv.started act (pend ++ [{ c := c, fn := fn, p := p }]) hd hrun hch ?_ ?_ ?_ ?_ ?_
        · simp [hwt, Registration.toCase]
        · simp [hcv, Registration.toChan]
        · simpa [List.append_assoc] using hsub.append (List.Sublist.refl _)
        · intro r hr
          simp only [List.mem_append, List.mem_singleton] at hr
          rcases hr with hr | rfl
          · exact hval r hr
          · exact hv
        · simp only [List.length_append, List.length_singleton]
          omega

/-- Dropping a live active registration keeps the tables aligned. -/
theorem Inv.erase {w : World} (act pend : List Registration) (j : Nat) (cs : List Call)
    (hj : j < act.length)
    (hd : w.mcw.done = true) (hrun : w.mcw.running = 1)
    (hch : w.mcw.chans = defaultCase :: act.map Registration.toCase)
    (hwt : w.mcw.waiting = pend.map Registration.toCase)
    (hcv : w.mcw.chanVal = zeroChan :: (act ++ pend).map Registration.toChan)
    (hsub : (act ++ pend).Sublist w.regs)
    (hval : ∀ r ∈ w.regs, validArgs r.c r.fn = true)
    (hcap : w.mcw.chans.length + w.mcw.waiting.length < 65535) :
    Inv { mcw := { w.mcw with
                   chans := w.mcw.chans.eraseIdx (j + 1)
                   chanVal := w.mcw.chanVal.eraseIdx (j + 1) }
          regs := w.regs
          calls := cs } := by
  refine Inv.started (act.eraseIdx j) pend hd hrun ?_ hwt ?_ ?_ hval ?_
  · simp only [hch, List.eraseIdx_cons_succ, map_eraseIdx_comm]
  · simp only [hcv, List.eraseIdx_cons_succ, map_eraseIdx_comm,
      List.eraseIdx_append_of_lt_length hj]
  · exact ((List.eraseIdx_sublist act j).append (List.Sublist.refl pend)).trans hsub
  · have := List.length_eraseIdx_le w.mcw.chans (j + 1)
    simp only
    omega

theorem Inv.step_iter {w : World} (hinv : Inv w) (chosen : Nat) (recv : Iface)
    (recvOk : Bool) (invoke : Invoke) (w1 : World)
    (h : w.step (.iter chosen recv recvOk invoke) = some w1) : Inv w1 := by
  cases hinv with
  | fresh h0 _ _ => simp [World.step, h0, zeroWatcher] at h
  | started act pend hd hrun hch hwt hcv hsub hval hcap =>
    have hrun0 : ¬ w.mcw.running = 0 := by omega
    simp only [World.step, hrun0, if_false] at h
    cases hsel : w.mcw.chans[chosen]? with
    | none => simp [runIter, hsel] at h
    | some src =>
      cases chosen with
      | zero =>
        have hsrc : src = defaultCase := by
          rw [hch] at hsel
          simpa using hsel.symm
        rw [runIter_default invoke w.mcw 0 recv recvOk (hsrc ▸ hsel)] at h
        simp only [Option.some.injEq] at h
        subst h
        refine Inv.started (act ++ pend) [] hd hrun ?_ ?_ ?_ ?_ hval ?_
        · simp [hch, hwt]
        · rfl
        · simp [hcv]
        · simpa using hsub
        · simpa using hcap
      | succ j =>
        obtain ⟨r, hr, hsrc, hv⟩ := lookup_started w.mcw act pend j src hch hcv hsel
        have hj : j < act.length := by
          rcases Nat.lt_or_ge j act.length with h | h
          · exact h
          · rw [List.getElem?_eq_none h] at hr
            cases hr
        have hmem : r ∈ w.regs := hsub.subset (List.mem_append_left _ (List.getElem?_mem hr))
        obtain ⟨d, id, f, _, _, hf⟩ := (validArgs_iff r.c r.fn).1 (hval r hmem)
        rw [hf] at hv
        rw [runIter_recv invoke w.mcw (j + 1) recv recvOk r.c f r.p (hsrc ▸ hsel) hv] at h
        cases recvOk with
        | false =>
          simp only [Bool.false_eq_true, if_false, Option.some.injEq] at h
          subst h
          exact Inv.erase act pend j _ hj hd hrun hch hwt hcv hsub hval hcap
        | true =>
          simp only [if_true] at h
          cases hret : invoke f { Val := recv, Ok := true, P := r.p } with
          | none =>
            simp only [hret, Option.some.injEq] at h
            subst h
            exact Inv.started act pend hd hrun hch hwt hcv hsub hval hcap
          | some e =>
            simp only [hret, Option.some.injEq] at h
            subst h
            exact Inv.erase act pend j _ hj hd hrun hch hwt hcv hsub hval hcap

theorem Inv.step {w : World} (hinv : Inv w) (a : Action) (w1 : World)
    (h : w.step a = some w1) : Inv w1 := by
  cases a with
  | add c fn p => exact hinv.step_add c fn p w1 h
  | iter chosen recv recvOk invoke => exact hinv.step_iter chosen recv recvOk invoke w1 h

theorem Inv.exec {w : World} (hinv : Inv w) (acts : List Action) (w1 : World)
    (h : w.exec acts = some w1) : Inv w1 := by
  induction acts generalizing w with
  | nil =>
    simp only [World.exec, Option.some.injEq] at h
    exact h ▸ hinv
  | cons a t ih =>
    simp only [World.exec] at h
    cases hs : w.step a with
    | none => simp [hs] at h
    | some w2 =>
      simp only [hs] at h
      exact ih (hinv.step a w2 hs) h

theorem Reachable.inv {w : World} (h : Reachable w) : Inv w := by
  obtain ⟨acts, hacts⟩ := h
  exact Inv.init.exec acts w hacts

/-! ## Where table entries and invocations come from -/

theorem removeAt_sub (mcw : ChanWatcher) (chosen : Nat) (mcw1 : ChanWatcher) (v : Chan)
    (h : removeAt mcw chosen = some (mcw1, v)) :
    mcw1.waiting = mcw.waiting ∧ ∀ sc ∈ mcw1.chans, sc ∈ mcw.chans := by
  unfold removeAt at h
  split at h
  · split at h
    · cases h
    · simp only [Option.some.injEq, Prod.mk.injEq] at h
      obtain ⟨h1, _⟩ := h
      subst h1
      refine ⟨rfl, ?_⟩
      intro sc hsc
      simp only [List.mem_append] at hsc
      rcases hsc with hsc | hsc
      · exact List.mem_of_mem_take hsc
      · exact List.mem_of_mem_drop hsc
  · cases h

/-- An iteration of `run` creates no table entry, and every invocation it makes is for a
case of the active table. -/
theorem runIter_sub (invoke : Invoke) (mcw : ChanWatcher) (chosen : Nat) (recv : Iface)
    (recvOk : Bool) (mcw1 : ChanWatcher) (cs : List Call)
    (h : runIter invoke mcw chosen recv recvOk = some (mcw1, cs)) :
    (∀ sc ∈ mcw1.chans, sc ∈ mcw.chans ∨ sc ∈ mcw.waiting) ∧
      (∀ sc ∈ mcw1.waiting, sc ∈ mcw.waiting) ∧ (∀ call ∈ cs, call.src ∈ mcw.chans) := by
  unfold runIter at h
  cases hsel : mcw.chans[chosen]? with
  | none => simp [hsel] at h
  | some c =>
    have hc : c ∈ mcw.chans := List.getElem?_mem hsel
    simp only [hsel] at h
    split at h
    · split at h
      · simp only [Option.some.injEq, Prod.mk.injEq] at h
        obtain ⟨h1, h2⟩ := h
        subst h1 h2
        simp
      · simp only [Option.some.injEq, Prod.mk.injEq] at h
        obtain ⟨h1, h2⟩ := h
        subst h1 h2
        exact ⟨fun sc hsc => Or.inl hsc, fun sc hsc => hsc, by simp⟩
    · split at h
      · cases hv : mcw.chanVal[chosen]? with
        | none => simp [hv] at h
        | some v =>
          simp only [hv] at h
          cases hf : v.fn with
          | none => simp [hf] at h
          | some f =>
            simp only [hf] at h
            split at h
            · simp only [Option.some.injEq, Prod.mk.injEq] at h
              obtain ⟨h1, h2⟩ := h
              subst h1 h2
              exact ⟨fun sc hsc => Or.inl hsc, fun sc hsc => hsc, by simp [hc]⟩
            · cases hr : removeAt mcw chosen with
              | none => simp [hr] at h
              | some res =>
                obtain ⟨m2, v2⟩ := res
                simp only [hr, Option.some.injEq, Prod.mk.injEq] at h
                obtain ⟨h1, h2⟩ := h
                subst h1 h2
                obtain ⟨hw, hch⟩ := removeAt_sub mcw chosen m2 v2 hr
                refine ⟨fun sc hsc => Or.inl (hch sc hsc), ?_, ?_⟩
                · intro sc hsc
                  rwa [hw] at hsc
                · simp [hc]
      · cases hr : removeAt mcw chosen with
        | none => simp [hr] at h
        | some res =>
          obtain ⟨m2, v2⟩ := res
          simp only [hr] at h
          cases hf : v2.fn with
          | none => simp [hf] at h
          | some f =>
            simp only [hf, Option.some.injEq, Prod.mk.injEq] at h
            obtain ⟨h1, h2⟩ := h
            subst h1 h2
            obtain ⟨hw, hch⟩ := removeAt_sub mcw chosen m2 v2 hr
            refine ⟨fun sc hsc => Or.inl (hch sc hsc), ?_, ?_⟩
            · intro sc hsc
              rwa [hw] at hsc
            · simp [hc]

/-- Table entries after `AddChan`: old ones, the idle case, or the case just registered. -/
theorem AddChan_sub (mcw : ChanWatcher) (c : Iface) (fn : Option Callback) (p : Iface) :
    (∀ sc ∈ (AddChan mcw c fn p).2.chans, sc ∈ mcw.chans ∨ sc = defaultCase) ∧
      (∀ sc ∈ (AddChan mcw c fn p).2.waiting,
        sc ∈ mcw.waiting ∨ ((AddChan mcw c fn p).1 = none ∧ sc = recvCase c)) := by
  cases hv : validArgs c fn with
  | false =>
    obtain ⟨h2, _⟩ := AddChan_of_invalid mcw c fn p hv
    rw [h2]
    exact ⟨fun sc h => Or.inl h, fun sc h => Or.inl h⟩
  | true =>
    rw [AddChan_of_valid mcw c fn p hv]
    have h1 : ∀ sc ∈ (onceInit mcw).chans, sc ∈ mcw.chans ∨ sc = defaultCase := by
      intro sc hsc
      unfold onceInit at hsc
      split at hsc
      · exact Or.inl hsc
      · simp at hsc
        exact Or.inr hsc
    have h2 : (onceInit mcw).waiting = mcw.waiting := by
      unfold onceInit
      split <;> rfl
    split
    · exact ⟨h1, fun sc hsc => Or.inl (h2 ▸ hsc)⟩
    · refine ⟨h1, ?_⟩
      intro sc hsc
      simp only [List.mem_append, List.mem_singleton] at hsc
      rcases hsc with hsc | hsc
      · exact Or.inl (h2 ▸ hsc)
      · exact Or.inr ⟨rfl, hsc⟩

/-! ## Counting the live entries of one channel -/

/-- The live table entries of a channel never outnumber its successful registrations. -/
theorem Inv.live_le_regs {w : World} (hinv : Inv w) (id : Nat) :
    (w.mcw.chans ++ w.mcw.waiting).countP (SelectCase.onChan id) ≤
      w.regs.countP (Registration.onChan id) := by
  cases hinv with
  | fresh h0 _ _ => simp [h0, zeroWatcher]
  | started act pend _ _ hch hwt _ hsub _ _ =>
    have hfun : (SelectCase.onChan id ∘ Registration.toCase) = Registration.onChan id := rfl
    have hdef : SelectCase.onChan id defaultCase = false := rfl
    have h1 : (w.mcw.chans ++ w.mcw.waiting).countP (SelectCase.onChan id) =
        (act ++ pend).countP (Registration.onChan id) := by
      rw [hch, hwt, List.cons_append, ← List.map_append, List.countP_cons, List.countP_map,
        hfun, hdef]
      simp
    rw [h1]
    exact hsub.countP_le _

theorem step_regs_calls (w : World) (a : Action) (w1 : World) (h : w.step a = some w1) :
    (∃ extra, w1.regs = w.regs ++ extra) ∧ (∃ later, w1.calls = w.calls ++ later) := by
  cases a with
  | add c fn p =>
    simp only [World.step, Option.some.injEq] at h
    subst h
    refine ⟨?_, [], by simp⟩
    by_cases he : (AddChan w.mcw c fn p).1 = none
    · exact ⟨[{ c := c, fn := fn, p := p }], by simp [he]⟩
    · exact ⟨[], by simp [he]⟩
  | iter chosen recv recvOk invoke =>
    simp only [World.step] at h
    split at h
    · cases h
    · split at h
      · cases h
      · simp only [Option.some.injEq] at h
        subst h
        exact ⟨⟨[], by simp⟩, ⟨_, rfl⟩⟩

theorem exec_regs (w : World) (acts : List Action) (w1 : World)
    (h : w.exec acts = some w1) : ∃ extra, w1.regs = w.regs ++ extra := by
  induction acts generalizing w with
  | nil =>
    simp only [World.exec, Option.some.injEq] at h
    exact ⟨[], by simp [h]⟩
  | cons a t ih =>
    simp only [World.exec] at h
    cases hs : w.step a with
    | none => simp [hs] at h
    | some w2 =>
      simp only [hs] at h
      obtain ⟨e1, he1⟩ := (step_regs_calls w a w2 hs).1
      obtain ⟨e2, he2⟩ := ih w2 h
      exact ⟨e1 ++ e2, by rw [he2, he1, List.append_assoc]⟩

theorem exec_regs_count_le (w : World) (acts : List Action) (w1 : World)
    (h : w.exec acts = some w1) (q : Registration → Bool) :
    w.regs.countP q ≤ w1.regs.countP q := by
  obtain ⟨e, he⟩ := exec_regs w acts w1 h
  rw [he, List.countP_append]
  omega

/-- Once a channel has no live entry and is not registered again, it stays out of both
tables and no callback is invoked for it. -/
theorem absent_exec (id : Nat) (post : List Action) (w2 w3 : World)
    (habs : ∀ sc ∈ w2.mcw.chans ++ w2.mcw.waiting, chanId sc.Chan ≠ some id)
    (hpost : w2.exec post = some w3)
    (hnoreg : w3.regs.countP (Registration.onChan id) ≤
      w2.regs.countP (Registration.onChan id)) :
    (∀ sc ∈ w3.mcw.chans ++ w3.mcw.waiting, chanId sc.Chan ≠ some id) ∧
      ∃ later, w3.calls = w2.calls ++ later ∧
        ∀ call ∈ later, chanId call.src.Chan ≠ some id := by
  induction post generalizing w2 with
  | nil =>
    simp only [World.exec, Option.some.injEq] at hpost
    subst hpost
    exact ⟨habs, [], by simp, by simp⟩
  | cons a t ih =>
    simp only [World.exec] at hpost
    cases hs : w2.step a with
    | none => simp [hs] at hpost
    | some w =>
      simp only [hs] at hpost
      have hle := exec_regs_count_le w t w3 hpost (Registration.onChan id)
      have hmono : w2.regs.countP (Registration.onChan id) ≤
          w.regs.countP (Registration.onChan id) :=
        exec_regs_count_le w2 [a] w (by simp [World.exec, hs]) _
      have key : (∀ sc ∈ w.mcw.chans ++ w.mcw.waiting, chanId sc.Chan ≠ some id) ∧
          ∃ now, w.calls = w2.calls ++ now ∧
            ∀ call ∈ now, chanId call.src.Chan ≠ some id := by
        cases a with
        | add c fn p =>
          simp only [World.step, Option.some.injEq] at hs
          subst hs
          obtain ⟨hch, hwt⟩ := AddChan_sub w2.mcw c fn p
          refine ⟨?_, [], by simp, by simp⟩
          intro sc hsc
          simp only [List.mem_append] at hsc
          rcases hsc with hsc | hsc
          · rcases hch sc hsc with h | h
            · exact habs sc (List.mem_append_left _ h)
            · rw [h]
              simp [defaultCase, chanId]
          · rcases hwt sc hsc with h | ⟨hnil, h⟩
            · exact habs sc (List.mem_append_right _ h)
            · intro hid
              have hq : Registration.onChan id { c := c, fn := fn, p := p } = true := by
                rw [h] at hid
                simpa [Registration.onChan, recvCase] using hid
              simp only [hnil, if_true, List.countP_append, List.countP_singleton, hq] at hle
              omega
        | iter chosen recv recvOk invoke =>
          simp only [World.step] at hs
          split at hs
          · cases hs
          · cases hr : runIter invoke w2.mcw chosen recv recvOk with
            | none => simp [hr] at hs
            | some res =>
              obtain ⟨m1, cs⟩ := res
              simp only [hr, Option.some.injEq] at hs
              subst hs
              obtain ⟨hch, hwt, hcs⟩ := runIter_sub invoke w2.mcw chosen recv recvOk m1 cs hr
              refine ⟨?_, cs, rfl, ?_⟩
              · intro sc hsc
                simp only [List.mem_append] at hsc
                rcases hsc with hsc | hsc
                · exact habs sc (List.mem_append.2 (hch sc hsc))
                · exact habs sc (List.mem_append_right _ (hwt sc hsc))
              · intro call hcall
                exact habs _ (List.mem_append_left _ (hcs call hcall))
      obtain ⟨habs1, now, hnow, hnowp⟩ := key
      obtain ⟨h3, later, hlater, hlaterp⟩ := ih w habs1 hpost (by omega)
      refine ⟨h3, now ++ later, by rw [hlater, hnow, List.append_assoc], ?_⟩
      intro call hcall
      simp only [List.mem_append] at hcall
      rcases hcall with h | h
      · exact hnowp call h
      · exact hlaterp call h

/-! ## `AddChan` on started and on fresh watchers -/

theorem onceInit_of_done (mcw : ChanWatcher) (h : mcw.done = true) : onceInit mcw = mcw := by
  simp [onceInit, h]

/-- In a reachable world the watcher is either untouched or started with the idle case in
front of the active table. -/
theorem Inv.shape {w : World} (hinv : Inv w) :
    (w.mcw.done = false ∧ w.mcw = zeroWatcher) ∨
      (w.mcw.done = true ∧ w.mcw.running = 1 ∧ 1 ≤ w.mcw.chans.length) := by
  cases hinv with
  | fresh h0 _ _ => exact Or.inl ⟨by rw [h0]; rfl, h0⟩
  | started act pend hd hrun hch _ _ _ _ _ => exact Or.inr ⟨hd, hrun, by simp [hch]⟩

/-- The capacity test of `AddChan`, read as a bound on the registered sources. -/
theorem full_iff_registered (mcw : ChanWatcher) (h : 1 ≤ mcw.chans.length) :
    mcw.chans.length + mcw.waiting.length + 1 ≥ 65535 ↔ ¬ registered mcw + 1 < 65534 := by
  unfold registered
  omega

/-! ## Sequences of registrations, and the start flag -/

theorem exec_snoc (w : World) (l : List Action) (a : Action) :
    w.exec (l ++ [a]) = (w.exec l).bind (fun w1 => w1.step a) := by
  induction l generalizing w with
  | nil =>
    simp only [List.nil_append, World.exec, Option.some_bind]
    cases w.step a <;> rfl
  | cons b t ih =>
    simp only [List.cons_append, World.exec]
    cases w.step b with
    | none => rfl
    | some w2 => exact ih w2

/-- Registering one source after another on a fresh watcher: the first 65533 calls are
recorded, every later one changes nothing. -/
theorem exec_valid_adds (acts : List Action) (h : ∀ a ∈ acts, a.validAdd = true) :
    World.init.exec acts =
      some (if acts.isEmpty then World.init
        else { mcw := pendingOnly ((acts.take 65533).map Action.toReg)
               regs := (acts.take 65533).map Action.toReg
               calls := [] }) := by
  induction acts using List.reverseRecOn with
  | nil => rfl
  | append_singleton l a ih =>
    have hl : ∀ b ∈ l, b.validAdd = true := fun b hb => h b (List.mem_append_left _ hb)
    have ha : a.validAdd = true := h a (by simp)
    rw [exec_snoc, ih hl]
    cases a with
    | iter chosen recv recvOk invoke => simp [Action.validAdd] at ha
    | add c fn p =>
      simp only [Action.validAdd] at ha
      by_cases hnil : l = []
      · subst hnil
        simp [World.step, World.init, AddChan_of_valid _ _ _ _ ha, onceInit, pendingOnly,
          Action.toReg, Registration.toChan, Registration.toCase]
      · have hne : (l ++ [Action.add c fn p]).isEmpty = false := by simp
        have hnil1 : l.isEmpty = false := by simpa using hnil
        simp only [hnil1, hne, Bool.false_eq_true, if_false, Option.some_bind, World.step,
          AddChan_of_valid _ _ _ _ ha]
        have hinit : onceInit (pendingOnly ((l.take 65533).map Action.toReg)) =
            pendingOnly ((l.take 65533).map Action.toReg) := onceInit_of_done _ rfl
        rw [hinit]
        by_cases hlen : 65533 ≤ l.length
        · have hfull : (pendingOnly ((l.take 65533).map Action.toReg)).chans.length +
              (pendingOnly ((l.take 65533).map Action.toReg)).waiting.length + 1 ≥ 65535 := by
            simp only [pendingOnly, List.length_map, List.length_take, List.length_singleton]
            omega
          simp only [hfull, if_true, List.take_append_of_le_length hlen]
          simp
        · have hfull : ¬ (pendingOnly ((l.take 65533).map Action.toReg)).chans.length +
              (pendingOnly ((l.take 65533).map Action.toReg)).waiting.length + 1 ≥ 65535 := by
            simp only [pendingOnly, List.length_map, List.length_take, List.length_singleton]
            omega
          have h1 : l.take 65533 = l := List.take_of_length_le (by omega)
          have h2 : (l ++ [Action.add c fn p]).take 65533 = l ++ [Action.add c fn p] :=
            List.take_of_length_le (by simp; omega)
          have hc : ¬ 65534 ≤ 1 + l.length := by omega
          simp only [hfull, if_false, h1, h2]
          simp [pendingOnly, Action.toReg, Registration.toChan, Registration.toCase, hc]

theorem removeAt_done (mcw : ChanWatcher) (chosen : Nat) (mcw1 : ChanWatcher) (v : Chan)
    (h : removeAt mcw chosen = some (mcw1, v)) : mcw1.done = mcw.done := by
  unfold removeAt at h
  split at h
  · split at h
    · cases h
    · simp only [Option.some.injEq, Prod.mk.injEq] at h
      rw [← h.1]
  · cases h

theorem runIter_done (invoke : Invoke) (mcw : ChanWatcher) (chosen : Nat) (recv : Iface)
    (recvOk : Bool) (mcw1 : ChanWatcher) (cs : List Call)
    (h : runIter invoke mcw chosen recv recvOk = some (mcw1, cs)) :
    mcw1.done = mcw.done := by
  unfold runIter at h
  cases hsel : mcw.chans[chosen]? with
  | none => simp [hsel] at h
  | some c =>
    simp only [hsel] at h
    split at h
    · split at h <;>
        (simp only [Option.some.injEq, Prod.mk.injEq] at h
         rw [← h.1])
    · split at h
      · cases hv : mcw.chanVal[chosen]? with
        | none => simp [hv] at h
        | some v =>
          simp only [hv] at h
          cases hf : v.fn with
          | none => simp [hf] at h
          | some f =>
            simp only [hf] at h
            split at h
            · simp only [Option.some.injEq, Prod.mk.injEq] at h
              rw [← h.1]
            · cases hr : removeAt mcw chosen with
              | none => simp [hr] at h
              | some res =>
                obtain ⟨m2, v2⟩ := res
                simp only [hr, Option.some.injEq, Prod.mk.injEq] at h
                rw [← h.1]
                exact removeAt_done _ _ _ _ hr
      · cases hr : removeAt mcw chosen with
        | none => simp [hr] at h
        | some res =>
          obtain ⟨m2, v2⟩ := res
          simp only [hr] at h
          cases hf : v2.fn with
          | none => simp [hf] at h
          | some f =>
            simp only [hf, Option.some.injEq, Prod.mk.injEq] at h
            rw [← h.1]
            exact removeAt_done _ _ _ _ hr

theorem step_done (w : World) (a : Action) (w1 : World) (h : w.step a = some w1) :
    w1.mcw.done = (w.mcw.done || a.validAdd) := by
  cases a with
  | add c fn p =>
    simp only [World.step, Option.some.injEq] at h
    subst h
    simp only [Action.validAdd]
    cases hv : validArgs c fn with
    | false => simp [(AddChan_of_invalid w.mcw c fn p hv).1]
    | true =>
      rw [AddChan_of_valid w.mcw c fn p hv]
      have : (onceInit w.mcw).done = true := by
        unfold onceInit
        split
        · assumption
        · rfl
      split <;> simp [this]
  | iter chosen recv recvOk invoke =>
    simp only [World.step] at h
    split at h
    · cases h
    · split at h
      · cases h
      · rename_i m1 cs hr
        simp only [Option.some.injEq] at h
        subst h
        simp [Action.validAdd, runIter_done _ _ _ _ _ _ _ hr]

theorem exec_done (w : World) (acts : List Action) (w1 : World)
    (h : w.exec acts = some w1) : w1.mcw.done = (w.mcw.done || acts.any Action.validAdd) := by
  induction acts generalizing w with
  | nil =>
    simp only [World.exec, Option.some.injEq] at h
    simp [h]
  | cons a t ih =>
    simp only [World.exec] at h
    cases hs : w.step a with
    | none => simp [hs] at h
    | some w2 =>
      simp only [hs] at h
      rw [ih w2 h, step_done w a w2 hs, List.any_cons, Bool.or_assoc]

/-- On a started reachable watcher, a call with valid arguments is decided by the number
of registered sources alone. -/
theorem AddChan_started (w : World) (hinv : Inv w) (hstart : w.mcw.done = true) (c : Iface)
    (fn : Option Callback) (p : Iface) (hv : validArgs c fn = true) :
    AddChan w.mcw c fn p =
      if registered w.mcw + 1 < 65534 then
        (none,
          { w.mcw with
            chanVal := w.mcw.chanVal ++ [{ fn := fn, p := p }]
            waiting := w.mcw.waiting ++ [recvCase c] })
      else (some GoError.ErrReceiverFull, w.mcw) := by
  have hlen : 1 ≤ w.mcw.chans.length := by
    rcases hinv.shape with ⟨h, _⟩ | ⟨_, _, h⟩
    · rw [hstart] at h
      cases h
    · exact h
  rw [AddChan_of_valid _ _ _ _ hv, onceInit_of_done _ hstart]
  by_cases hfull : w.mcw.chans.length + w.mcw.waiting.length + 1 ≥ 65535
  · have := (full_iff_registered _ hlen).1 hfull
    simp only [hfull, this, if_true, if_false]
  · have : registered w.mcw + 1 < 65534 := by
      by_contra hcon
      exact hfull ((full_iff_registered _ hlen).2 hcon)
    simp only [hfull, this, if_true, if_false]

/-! ## Why an iteration can be taken as one step

Between the locked sections of one iteration only `AddChan` can run. On a started watcher
it leaves the active table alone and keeps every existing position of the callback table,
which is all the later sections of the iteration read, so an `AddChan` that runs in the
middle of an iteration has the effect of one that ran just before it. -/

theorem AddChan_keeps_positions (mcw : ChanWatcher) (hd : mcw.done = true) (c : Iface)
    (fn : Option Callback) (p : Iface) (chosen : Nat) (hlt : chosen < mcw.chanVal.length) :
    (AddChan mcw c fn p).2.chans = mcw.chans ∧
      (AddChan mcw c fn p).2.chanVal[chosen]? = mcw.chanVal[chosen]? := by
  cases hv : validArgs c fn with
  | false =>
    rw [(AddChan_of_invalid mcw c fn p hv).1]
    exact ⟨rfl, rfl⟩
  | true =>
    rw [AddChan_of_valid mcw c fn p hv, onceInit_of_done mcw hd]
    split
    · exact ⟨rfl, rfl⟩
    · exact ⟨rfl, List.getElem?_append_left hlt⟩

/-! ## The three outcomes of an iteration -/

/-- The result of an iteration that selected a case of direction `SelectDefault`. -/
theorem runIter_idle (invoke : Invoke) (mcw : ChanWatcher) (chosen : Nat) (recv : Iface)
    (recvOk : Bool) (c : SelectCase) (hc : mcw.chans[chosen]? = some c)
    (hdir : c.Dir = SelectDir.SelectDefault) :
    runIter invoke mcw chosen recv recvOk =
      some ({ mcw with chans := mcw.chans ++ mcw.waiting, waiting := [] }, []) := by
  unfold runIter
  simp only [hc, hdir, if_true]
  cases hw : mcw.waiting with
  | nil =>
    simp
    cases mcw
    simp_all
  | cons a t => simp

/-- An iteration leaves the watcher alone, merges the pending table, or drops position
`chosen` from the active table and the callback table. -/
theorem runIter_shape (invoke : Invoke) (mcw : ChanWatcher) (chosen : Nat) (recv : Iface)
    (recvOk : Bool) (mcw1 : ChanWatcher) (cs : List Call)
    (h : runIter invoke mcw chosen recv recvOk = some (mcw1, cs)) :
    mcw1 = mcw ∨
      mcw1 = { mcw with chans := mcw.chans ++ mcw.waiting, waiting := [] } ∨
      (chosen < mcw.chans.length ∧
        mcw1 = { mcw with
                 chans := mcw.chans.eraseIdx chosen
                 chanVal := mcw.chanVal.eraseIdx chosen }) := by
  cases hsel : mcw.chans[chosen]? with
  | none => simp [runIter, hsel] at h
  | some c =>
    have hlt : chosen < mcw.chans.length := by
      rcases Nat.lt_or_ge chosen mcw.chans.length with h1 | h1
      · exact h1
      · rw [List.getElem?_eq_none h1] at hsel
        cases hsel
    by_cases hdir : c.Dir = SelectDir.SelectDefault
    · rw [runIter_idle invoke mcw chosen recv recvOk c hsel hdir] at h
      simp only [Option.some.injEq, Prod.mk.injEq] at h
      exact Or.inr (Or.inl h.1.symm)
    · unfold runIter at h
      simp only [hsel, hdir, if_false] at h
      cases hv : mcw.chanVal[chosen]? with
      | none =>
        have hrm : removeAt mcw chosen = none := by simp [removeAt, hv]
        simp only [hv, hrm] at h
        split at h <;> cases h
      | some v =>
        have hrm := removeAt_eq mcw chosen v hlt hv
        simp only [hv, hrm] at h
        split at h
        · cases hf : v.fn with
          | none => simp [hf] at h
          | some f =>
            simp only [hf] at h
            split at h
            · simp only [Option.some.injEq, Prod.mk.injEq] at h
              exact Or.inl h.1.symm
            · simp only [Option.some.injEq, Prod.mk.injEq] at h
              exact Or.inr (Or.inr ⟨hlt, h.1.symm⟩)
        · cases hf : v.fn with
          | none => simp [hf] at h
          | some f =>
            simp only [hf, Option.some.injEq, Prod.mk.injEq] at h
            exact Or.inr (Or.inr ⟨hlt, h.1.symm⟩)

/-! ## Consequences of the alignment invariant -/

theorem Inv.lengths {w : World} (hinv : Inv w) :
    w.mcw.chanVal.length = w.mcw.chans.length + w.mcw.waiting.length ∧
      w.mcw.chans.length + w.mcw.waiting.length < 65535 := by
  cases hinv with
  | fresh h0 _ _ => simp [h0, zeroWatcher]
  | started act pend _ _ hch hwt hcv _ _ hcap =>
    refine ⟨?_, hcap⟩
    simp [hch, hwt, hcv]
    omega

/-- In an aligned world, position `j` of the pending table and position
`len(chans) + j` of the callback table come from the same successful registration. -/
theorem Inv.lookup_pending {w : World} (hinv : Inv w) (j : Nat) (src : SelectCase)
    (hsel : w.mcw.waiting[j]? = some src) :
    ∃ r, r ∈ w.regs ∧ src = recvCase r.c ∧
      w.mcw.chanVal[w.mcw.chans.length + j]? = some r.toChan := by
  cases hinv with
  | fresh h0 _ _ =>
    rw [h0] at hsel
    simp [zeroWatcher] at hsel
  | started act pend _ _ hch hwt hcv hsub _ _ =>
    rw [hwt, List.getElem?_map] at hsel
    cases hr : pend[j]? with
    | none => simp [hr] at hsel
    | some r =>
      simp only [hr, Option.map_some', Option.some.injEq] at hsel
      refine ⟨r, hsub.subset (List.mem_append_right _ (List.getElem?_mem hr)), ?_, ?_⟩
      · rw [← hsel]
        rfl
      · have hidx : w.mcw.chans.length + j = (act.length + j) + 1 := by
          simp [hch]
          omega
        rw [hidx, hcv, List.getElem?_cons_succ, List.getElem?_map,
          List.getElem?_append_right (by omega)]
        simp [hr]

/-- In a started aligned world the idle case sits at position 0 of the active table and
every other position holds a receive case. -/
theorem Inv.idle_slot {w : World} (hinv : Inv w) (hd : w.mcw.done = true) :
    w.mcw.chans[0]? = some defaultCase ∧
      ∀ i src, 1 ≤ i → w.mcw.chans[i]? = some src → src.Dir = SelectDir.SelectRecv := by
  cases hinv with
  | fresh h0 _ _ =>
    rw [h0] at hd
    cases hd
  | started act pend _ _ hch _ hcv _ _ _ =>
    refine ⟨by simp [hch], ?_⟩
    intro i src hi hsel
    obtain ⟨j, rfl⟩ : ∃ j, i = j + 1 := ⟨i - 1, by omega⟩
    obtain ⟨r, _, hsrc, _⟩ := lookup_started w.mcw act pend j src hch hcv hsel
    rw [hsrc]
    rfl

/-! ## A watcher at capacity -/

/-- The idle branch as a step of the world. -/
theorem step_idle (w : World) (recv : Iface) (recvOk : Bool) (invoke : Invoke)
    (hrun : ¬ w.mcw.running = 0) (h0 : w.mcw.chans[0]? = some defaultCase) :
    w.step (.iter 0 recv recvOk invoke) =
      some { mcw := { w.mcw with chans := w.mcw.chans ++ w.mcw.waiting, waiting := [] }
             regs := w.regs
             calls := w.calls ++ [] } := by
  simp only [World.step, hrun, if_false, runIter_default invoke w.mcw 0 recv recvOk h0]

theorem registered_eq (mcw : ChanWatcher) :
    registered mcw = (mcw.chans.length - 1) + mcw.waiting.length := rfl

theorem fullRegs_length : fullRegs.length = 65533 := List.length_replicate _ _

theorem fullWorld_reachable : Reachable fullWorld := by
  refine ⟨fullActs, ?_⟩
  have hv : ∀ a ∈ List.replicate 65533 (Action.add chA (some 1) .nil), a.validAdd = true := by
    intro a ha
    rw [List.eq_of_mem_replicate ha]
    rfl
  have hne : (List.replicate 65533 (Action.add chA (some 1) .nil)).isEmpty = false := by
    rw [List.isEmpty_eq_false]
    intro h
    have := congrArg List.length h
    rw [List.length_replicate, List.length_nil] at this
    omega
  have htake : ((List.replicate 65533 (Action.add chA (some 1) .nil)).take 65533).map
      Action.toReg = fullRegs := by
    rw [List.take_replicate, List.map_replicate]
    rfl
  have hrun : ¬ (pendingOnly fullRegs).running = 0 := Nat.succ_ne_zero 0
  unfold fullActs
  rw [exec_snoc, exec_valid_adds _ hv, hne, htake, if_neg Bool.false_ne_true,
    Option.some_bind]
  exact step_idle { mcw := pendingOnly fullRegs, regs := fullRegs, calls := [] } .nil false
    keepGoing hrun rfl

theorem fullWorld_registered : registered fullWorld.mcw = 65533 := by
  have hc : fullWorld.mcw.chans = [defaultCase] ++ fullRegs.map Registration.toCase := rfl
  have hw : fullWorld.mcw.waiting = [] := rfl
  rw [registered_eq, hc, hw, List.length_append, List.length_map, fullRegs_length,
    List.length_singleton, List.length_nil]

/-! ## Closure notifications never outnumber registrations -/

/-- One step keeps the balance: closure notifications delivered for a channel plus its
entries still in the tables never exceed its successful registrations. -/
theorem closures_step (id : Nat) {w w1 : World} (hinv : Inv w) (a : Action)
    (hs : w.step a = some w1)
    (hb : w.calls.countP (Call.closureOf id) +
        (w.mcw.chans ++ w.mcw.waiting).countP (SelectCase.onChan id) ≤
      w.regs.countP (Registration.onChan id)) :
    w1.calls.countP (Call.closureOf id) +
        (w1.mcw.chans ++ w1.mcw.waiting).countP (SelectCase.onChan id) ≤
      w1.regs.countP (Registration.onChan id) := by
  cases a with
  | add c fn p =>
    simp only [World.step, Option.some.injEq] at hs
    subst hs
    have hsame : SelectCase.onChan id (recvCase c) =
        Registration.onChan id { c := c, fn := fn, p := p } := rfl
    cases hv : validArgs c fn with
    | false =>
      obtain ⟨h2, h1⟩ := AddChan_of_invalid w.mcw c fn p hv
      simp only [h2, h1, if_false]
      exact hb
    | true =>
      cases hinv with
      | fresh h0 hr hc =>
        rw [AddChan_of_valid w.mcw c fn p hv, h0]
        simp only [hr, hc, zeroWatcher, onceInit]
        simp [List.countP_cons, ← hsame, SelectCase.onChan, defaultCase, chanId]
      | started act pend hd hrun hch hwt hcv hsub hval hcap =>
        rw [AddChan_started w (Inv.started act pend hd hrun hch hwt hcv hsub hval hcap) hd c fn
          p hv]
        by_cases hroom : registered w.mcw + 1 < 65534
        · simp only [hroom, if_true, List.countP_append, List.countP_singleton, ← hsame]
          simp only [List.countP_append] at hb
          split <;> omega
        · simp only [hroom, if_false]
          exact hb
  | iter chosen recv recvOk invoke =>
    cases hinv with
    | fresh h0 _ _ => simp [World.step, h0, zeroWatcher] at hs
    | started act pend hd hrun hch hwt hcv hsub hval hcap =>
      have hrun0 : ¬ w.mcw.running = 0 := by omega
      simp only [World.step, hrun0, if_false] at hs
      cases hsel : w.mcw.chans[chosen]? with
      | none => simp [runIter, hsel] at hs
      | some src =>
        cases chosen with
        | zero =>
          have hsrc : src = defaultCase := by
            rw [hch] at hsel
            simpa using hsel.symm
          rw [runIter_default invoke w.mcw 0 recv recvOk (hsrc ▸ hsel)] at hs
          simp only [Option.some.injEq] at hs
          subst hs
          simpa using hb
        | succ j =>
          obtain ⟨r, hr, hsrc, hv⟩ := lookup_started w.mcw act pend j src hch hcv hsel
          have hmem : r ∈ w.regs :=
            hsub.subset (List.mem_append_left _ (List.getElem?_mem hr))
          obtain ⟨d, cid, f, _, _, hf⟩ := (validArgs_iff r.c r.fn).1 (hval r hmem)
          rw [hf] at hv
          have hcnt := countP_eraseIdx_add (SelectCase.onChan id) w.mcw.chans (j + 1) src hsel
          rw [hsrc] at hcnt
          simp only [List.countP_append] at hb
          rw [runIter_recv invoke w.mcw (j + 1) recv recvOk r.c f r.p (hsrc ▸ hsel) hv] at hs
          cases recvOk with
          | false =>
            simp only [Bool.false_eq_true, if_false, Option.some.injEq] at hs
            subst hs
            have hcl : Call.closureOf id
                { src := recvCase r.c, fn := f, ev := { Val := recv, Ok := false, P := r.p },
                  seen := { w.mcw with
                            chans := w.mcw.chans.eraseIdx (j + 1)
                            chanVal := w.mcw.chanVal.eraseIdx (j + 1) } } =
                SelectCase.onChan id (recvCase r.c) := rfl
            simp only [List.countP_append, List.countP_singleton, hcl]
            split at hcnt <;> (simp_all; try omega)
          | true =>
            simp only [if_true] at hs
            have hcl : ∀ m : ChanWatcher, Call.closureOf id
                { src := recvCase r.c, fn := f, ev := { Val := recv, Ok := true, P := r.p },
                  seen := m } = false := fun _ => rfl
            cases hret : invoke f { Val := recv, Ok := true, P := r.p } with
            | none =>
              simp only [hret, Option.some.injEq] at hs
              subst hs
              simp only [List.countP_append, List.countP_singleton, hcl]
              simpa using hb
            | some e =>
              simp only [hret, Option.some.injEq] at hs
              subst hs
              simp only [List.countP_append, List.countP_singleton, hcl]
              split at hcnt <;> (simp_all; try omega)

theorem closures_exec (id : Nat) (acts : List Action) {w w1 : World} (hinv : Inv w)
    (h : w.exec acts = some w1)
    (hb : w.calls.countP (Call.closureOf id) +
        (w.mcw.chans ++ w.mcw.waiting).countP (SelectCase.onChan id) ≤
      w.regs.countP (Registration.onChan id)) :
    w1.calls.countP (Call.closureOf id) +
        (w1.mcw.chans ++ w1.mcw.waiting).countP (SelectCase.onChan id) ≤
      w1.regs.countP (Registration.onChan id) := by
  induction acts generalizing w with
  | nil =>
    simp only [World.exec, Option.some.injEq] at h
    exact h ▸ hb
  | cons a t ih =>
    simp only [World.exec] at h
    cases hs : w.step a with
    | none => simp [hs] at h
    | some w2 =>
      simp only [hs] at h
      exact ih (hinv.step a w2 hs) h (closures_step id hinv a hs hb)

theorem Reachable.closures_le {w : World} (hw : Reachable w) (id : Nat) :
    w.calls.countP (Call.closureOf id) +
        (w.mcw.chans ++ w.mcw.waiting).countP (SelectCase.onChan id) ≤
      w.regs.countP (Registration.onChan id) := by
  obtain ⟨acts, hacts⟩ := hw
  exact closures_exec id acts Inv.init hacts (by simp [World.init])

/-! ## The scenarios of the specification, evaluated -/

/-- Scenario A: a source whose callback returns nil receives `7` and is then closed; the
callback sees the value event and then the closure event. -/
theorem scenarioA :
    (World.init.exec
        [.add chA (some 1) .nil, .iter 0 .nil false keepGoing,
          .iter 1 (.value 7) true keepGoing, .iter 1 .nil false keepGoing]).map
      (fun w => (w.calls.map (fun k => (k.fn, k.ev.Val, k.ev.Ok)), w.mcw.chans, w.mcw.chanVal)) =
      some ([(1, .value 7, true), (1, .nil, false)], [defaultCase], [zeroChan]) := rfl

/-- Scenario B: a source whose callback returns `ErrExplictQuit` on its first invocation
is removed after the first value, without a closure event, and cannot be selected again. -/
theorem scenarioB :
    (World.init.exec
        [.add chB (some 2) .nil, .iter 0 .nil false keepGoing,
          .iter 1 (.value 1) true quitNow]).map
      (fun w => (w.calls.map (fun k => (k.fn, k.ev.Val, k.ev.Ok)), w.mcw.chans, w.mcw.chanVal)) =
        some ([(2, .value 1, true)], [defaultCase], [zeroChan]) ∧
      World.init.exec
        [.add chB (some 2) .nil, .iter 0 .nil false keepGoing,
          .iter 1 (.value 1) true quitNow, .iter 1 (.value 2) true quitNow] = none :=
  ⟨rfl, rfl⟩

theorem demoWorld_reachable : Reachable demoWorld := ⟨demoActs, rfl⟩

/-! ## Claims about one iteration of `run` -/

/-- C1. In every reachable world, when an iteration of `run` selects the active source at
index `i >= 1` and the receive succeeds with value `v`, the callback invoked is the one of
a successful `AddChan` call that registered this source (it sits at index `i` of the
callback table), it is invoked exactly once, with `Event{Val: v, Ok: true, P: param}` for
the param of that call, and if it returns nil the whole watcher state is unchanged. -/
theorem C1_value_reaches_registered_callback (w : World) (hw : Reachable w) (i : Nat)
    (src : SelectCase) (v : Iface) (invoke : Invoke) (hi : 1 ≤ i)
    (hsel : w.mcw.chans[i]? = some src) :
    ∃ r f, r ∈ w.regs ∧ r.fn = some f ∧ src = recvCase r.c ∧
      w.mcw.chanVal[i]? = some r.toChan ∧
      ∃ mcw1, runIter invoke w.mcw i v true =
          some (mcw1, [{ src := src, fn := f, ev := { Val := v, Ok := true, P := r.p },
                         seen := w.mcw }]) ∧
        (invoke f { Val := v, Ok := true, P := r.p } = none → mcw1 = w.mcw) := by
  obtain ⟨r, f, hmem, hf, hsrc, hv⟩ := hw.inv.lookup i src hi hsel
  refine ⟨r, f, hmem, hf, hsrc, by rw [hv, Registration.toChan, hf], ?_⟩
  rw [runIter_recv invoke w.mcw i v true r.c f r.p (hsrc ▸ hsel) hv, ← hsrc]
  cases hret : invoke f { Val := v, Ok := true, P := r.p } with
  | none => exact ⟨w.mcw, by simp [hret], fun _ => rfl⟩
  | some e =>
    exact ⟨{ w.mcw with
             chans := w.mcw.chans.eraseIdx i
             chanVal := w.mcw.chanVal.eraseIdx i }, by simp [hret], fun h => by cases h⟩

theorem C1_witness :
    Reachable demoWorld ∧ 1 ≤ 2 ∧ demoWorld.mcw.chans[2]? = some (recvCase chB) ∧
      ∃ r f, r ∈ demoWorld.regs ∧ r.fn = some f ∧ recvCase chB = recvCase r.c ∧
        demoWorld.mcw.chanVal[2]? = some r.toChan ∧
        ∃ mcw1, runIter keepGoing demoWorld.mcw 2 (.value 77) true =
            some (mcw1, [{ src := recvCase chB, fn := f,
                           ev := { Val := .value 77, Ok := true, P := r.p },
                           seen := demoWorld.mcw }]) ∧
          (keepGoing f { Val := .value 77, Ok := true, P := r.p } = none →
            mcw1 = demoWorld.mcw) :=
  ⟨demoWorld_reachable, by decide, rfl,
    C1_value_reaches_registered_callback demoWorld demoWorld_reachable 2 (recvCase chB)
      (.value 77) keepGoing (by decide) rfl⟩

/-- C2, as stated, fails: register `chA` twice with the same callback and let both entries
become active. When the wait reports closure at index 1, the entry is removed and the
callback is notified, but `chA` is still in the active table; the next wait reports closure
at index 1 again and a second event with `Ok = false` is delivered for the same channel to
the same callback. -/
theorem C2_counterexample :
    (World.init.exec (dupActs ++ [.iter 1 .nil false keepGoing])).map
        (fun w => (w.mcw.chans, w.calls.map Call.summary)) =
        some ([defaultCase, recvCase chA], [(recvCase chA, 1, .nil, false)]) ∧
      (World.init.exec
          (dupActs ++ [.iter 1 .nil false keepGoing, .iter 1 .nil false keepGoing])).map
        (fun w => (w.mcw.chans, w.calls.map Call.summary)) =
        some ([defaultCase], [(recvCase chA, 1, .nil, false), (recvCase chA, 1, .nil, false)]) :=
  ⟨rfl, rfl⟩

/-- C2, amended. In every reachable world, when an iteration of `run` selects the active
source at index `i >= 1` and the receive reports closure, the entries at index `i` are
removed from the active table and the callback table (all other entries keep content and
order), and the callback registered with that source is invoked exactly once, with
`Ok = false` and the registered param, at a moment when the tables already lack the entry;
the resulting state and invocation do not depend on what the callback returns. From then
on, at every later point of the execution and for every channel, the events with
`Ok = false` delivered for the channel plus the entries of the channel still in the active
and pending tables do not exceed the successful registrations of the channel: the removed
entry yields no second such event, and a channel gets at most one per registration. -/
theorem C2_closure_notified_once_after_removal (w : World) (hw : Reachable w) (i : Nat)
    (src : SelectCase) (v : Iface) (hi : 1 ≤ i) (hsel : w.mcw.chans[i]? = some src) :
    ∃ r f, r ∈ w.regs ∧ r.fn = some f ∧ src = recvCase r.c ∧
      w.mcw.chanVal[i]? = some r.toChan ∧
      ∃ (erased : ChanWatcher) (after : World),
        erased = { w.mcw with
                   chans := w.mcw.chans.eraseIdx i
                   chanVal := w.mcw.chanVal.eraseIdx i } ∧
        after = { mcw := erased
                  regs := w.regs
                  calls := w.calls ++
                    [{ src := src, fn := f, ev := { Val := v, Ok := false, P := r.p },
                       seen := erased }] } ∧
        (∀ invoke : Invoke, runIter invoke w.mcw i v false =
          some (erased, [{ src := src, fn := f, ev := { Val := v, Ok := false, P := r.p },
                           seen := erased }])) ∧
        (∀ invoke : Invoke, w.step (.iter i v false invoke) = some after) ∧
        erased.chans.length + 1 = w.mcw.chans.length ∧
        erased.chanVal.length + 1 = w.mcw.chanVal.length ∧
        (∀ (post : List Action) (w3 : World) (id : Nat), after.exec post = some w3 →
          w3.calls.countP (Call.closureOf id) +
              (w3.mcw.chans ++ w3.mcw.waiting).countP (SelectCase.onChan id) ≤
            w3.regs.countP (Registration.onChan id)) := by
  have hinv := hw.inv
  obtain ⟨r, f, hmem, hf, hsrc, hv⟩ := hinv.lookup i src hi hsel
  have hiter : ∀ invoke : Invoke, runIter invoke w.mcw i v false =
      some ({ w.mcw with
              chans := w.mcw.chans.eraseIdx i
              chanVal := w.mcw.chanVal.eraseIdx i },
        [{ src := src, fn := f, ev := { Val := v, Ok := false, P := r.p },
           seen := { w.mcw with
                     chans := w.mcw.chans.eraseIdx i
                     chanVal := w.mcw.chanVal.eraseIdx i } }]) := by
    intro invoke
    rw [runIter_recv invoke w.mcw i v false r.c f r.p (hsrc ▸ hsel) hv, ← hsrc]
    simp
  have hlt : i < w.mcw.chans.length := by
    rcases Nat.lt_or_ge i w.mcw.chans.length with h | h
    · exact h
    · rw [List.getElem?_eq_none h] at hsel
      cases hsel
  have hrun : ¬ w.mcw.running = 0 := by
    rcases hinv.shape with ⟨_, h0⟩ | ⟨_, h1, _⟩
    · rw [h0] at hlt
      simp [zeroWatcher] at hlt
    · omega
  have hstep : ∀ invoke : Invoke, w.step (.iter i v false invoke) =
      some { mcw := { w.mcw with
                      chans := w.mcw.chans.eraseIdx i
                      chanVal := w.mcw.chanVal.eraseIdx i }
             regs := w.regs
             calls := w.calls ++
               [{ src := src, fn := f, ev := { Val := v, Ok := false, P := r.p },
                  seen := { w.mcw with
                            chans := w.mcw.chans.eraseIdx i
                            chanVal := w.mcw.chanVal.eraseIdx i } }] } := by
    intro invoke
    simp only [World.step, hrun, if_false, hiter invoke]
  refine ⟨r, f, hmem, hf, hsrc, by rw [hv, Registration.toChan, hf], _, _, rfl, rfl, hiter,
    hstep, ?_, ?_, ?_⟩
  · simp only [List.length_eraseIdx, hlt, if_true]
    omega
  · have hlt2 : i < w.mcw.chanVal.length := by
      rcases Nat.lt_or_ge i w.mcw.chanVal.length with h | h
      · exact h
      · rw [List.getElem?_eq_none h] at hv
        cases hv
    simp only [List.length_eraseIdx, hlt2, if_true]
    omega
  · intro post w3 id hpost
    have hs := hstep keepGoing
    exact closures_exec id post (hinv.step _ _ hs) hpost
      (closures_step id hinv _ hs (hw.closures_le id))

theorem C2_witness :
    Reachable demoWorld ∧ 1 ≤ 1 ∧ demoWorld.mcw.chans[1]? = some (recvCase chA) ∧
      ∃ r f, r ∈ demoWorld.regs ∧ r.fn = some f ∧ recvCase chA = recvCase r.c ∧
        demoWorld.mcw.chanVal[1]? = some r.toChan ∧
        ∃ (erased : ChanWatcher) (after : World),
          erased = { demoWorld.mcw with
                     chans := demoWorld.mcw.chans.eraseIdx 1
                     chanVal := demoWorld.mcw.chanVal.eraseIdx 1 } ∧
          after = { mcw := erased
                    regs := demoWorld.regs
                    calls := demoWorld.calls ++
                      [{ src := recvCase chA, fn := f,
                         ev := { Val := .nil, Ok := false, P := r.p }, seen := erased }] } ∧
          (∀ invoke : Invoke, runIter invoke demoWorld.mcw 1 .nil false =
            some (erased, [{ src := recvCase chA, fn := f,
                             ev := { Val := .nil, Ok := false, P := r.p },
                             seen := erased }])) ∧
          (∀ invoke : Invoke, demoWorld.step (.iter 1 .nil false invoke) = some after) ∧
          erased.chans.length + 1 = demoWorld.mcw.chans.length ∧
          erased.chanVal.length + 1 = demoWorld.mcw.chanVal.length ∧
          (∀ (post : List Action) (w3 : World) (id : Nat), after.exec post = some w3 →
            w3.calls.countP (Call.closureOf id) +
                (w3.mcw.chans ++ w3.mcw.waiting).countP (SelectCase.onChan id) ≤
              w3.regs.countP (Registration.onChan id)) :=
  ⟨demoWorld_reachable, by decide, rfl,
    C2_closure_notified_once_after_removal demoWorld demoWorld_reachable 1 (recvCase chA)
      .nil (by decide) rfl⟩

/-- C3. In every reachable world, when an iteration of `run` delivers a value from the
active source at index `i >= 1` and its callback returns any non-nil error, the entry at
index `i` is removed from the active table and from the callback table, all other entries
of both tables keep content and relative order, the pending table (and the rest of the
state) is unchanged, and the callback was invoked only once in the iteration, with
`Ok = true`: no event with `Ok = false` is delivered. -/
theorem C3_nonnil_return_removes_source (w : World) (hw : Reachable w) (i : Nat)
    (src : SelectCase) (v : Iface) (invoke : Invoke) (hi : 1 ≤ i)
    (hsel : w.mcw.chans[i]? = some src) :
    ∃ r f, r ∈ w.regs ∧ r.fn = some f ∧ src = recvCase r.c ∧
      w.mcw.chanVal[i]? = some r.toChan ∧
      ∀ e : GoError, invoke f { Val := v, Ok := true, P := r.p } = some e →
        runIter invoke w.mcw i v true =
          some ({ w.mcw with
                  chans := w.mcw.chans.take i ++ w.mcw.chans.drop (i + 1)
                  chanVal := w.mcw.chanVal.take i ++ w.mcw.chanVal.drop (i + 1) },
                [{ src := src, fn := f, ev := { Val := v, Ok := true, P := r.p },
                   seen := w.mcw }]) := by
  obtain ⟨r, f, hmem, hf, hsrc, hv⟩ := hw.inv.lookup i src hi hsel
  refine ⟨r, f, hmem, hf, hsrc, by rw [hv, Registration.toChan, hf], ?_⟩
  intro e he
  rw [runIter_recv invoke w.mcw i v true r.c f r.p (hsrc ▸ hsel) hv, ← hsrc]
  simp [he, List.eraseIdx_eq_take_drop_succ]

theorem C3_witness :
    Reachable demoWorld ∧ 1 ≤ 1 ∧ demoWorld.mcw.chans[1]? = some (recvCase chA) ∧
      ∃ r f, r ∈ demoWorld.regs ∧ r.fn = some f ∧ recvCase chA = recvCase r.c ∧
        demoWorld.mcw.chanVal[1]? = some r.toChan ∧
        ∀ e : GoError, quitNow f { Val := .value 77, Ok := true, P := r.p } = some e →
          runIter quitNow demoWorld.mcw 1 (.value 77) true =
            some ({ demoWorld.mcw with
                    chans := demoWorld.mcw.chans.take 1 ++ demoWorld.mcw.chans.drop (1 + 1)
                    chanVal :=
                      demoWorld.mcw.chanVal.take 1 ++ demoWorld.mcw.chanVal.drop (1 + 1) },
                  [{ src := recvCase chA, fn := f,
                     ev := { Val := .value 77, Ok := true, P := r.p },
                     seen := demoWorld.mcw }]) :=
  ⟨demoWorld_reachable, by decide, rfl,
    C3_nonnil_return_removes_source demoWorld demoWorld_reachable 1 (recvCase chA)
      (.value 77) quitNow (by decide) rfl⟩

/-! ## Claims about whole executions -/

/-- C4, as stated, fails: register `chA` twice, let both entries become active, and let
the callback of the first entry return `ErrExplictQuit` on a value. The entry is removed and
nothing is registered afterwards (still two registrations), yet `chA` is still in the active
table, and on the next value the callback is invoked again for `chA`. -/
theorem C4_counterexample :
    (World.init.exec (dupActs ++ [.iter 1 (.value 1) true quitNow])).map
        (fun w => (w.mcw.chans, w.regs.length, w.calls.map Call.summary)) =
        some ([defaultCase, recvCase chA], 2, [(recvCase chA, 1, .value 1, true)]) ∧
      (World.init.exec
          (dupActs ++ [.iter 1 (.value 1) true quitNow, .iter 1 (.value 2) true keepGoing])).map
        (fun w => (w.mcw.chans, w.regs.length, w.calls.map Call.summary)) =
        some ([defaultCase, recvCase chA], 2,
          [(recvCase chA, 1, .value 1, true), (recvCase chA, 1, .value 2, true)]) :=
  ⟨rfl, rfl⟩

/-- C4, amended. Take any world `w1`, in particular any world reached by an execution from
the zero-value watcher, in which an iteration of `run` removes the entry of channel `id` at
index `i` (on closure or on a non-nil callback return), and any continuation of it by
`AddChan` calls and iterations, with arbitrary outcomes of the wait. If the removed entry was the only entry of channel `id` in the active
and pending tables at that moment, and no `AddChan` naming channel `id` succeeds during the
continuation, then at the end of the continuation no case of the active table and no case
of the pending table waits on channel `id`, and none of the callback invocations made
during the continuation is for a case of channel `id`. -/
theorem C4_removed_source_never_returns (post : List Action) (w1 w2 w3 : World)
    (i : Nat) (recv : Iface) (recvOk : Bool) (invoke : Invoke) (d : ChanDir) (id : Nat)
    (hsel : w1.mcw.chans[i]? = some (recvCase (.chan d id)))
    (hstep : w1.step (.iter i recv recvOk invoke) = some w2)
    (hrem : w2.mcw.chans = w1.mcw.chans.eraseIdx i)
    (hsole : (w1.mcw.chans ++ w1.mcw.waiting).countP (SelectCase.onChan id) = 1)
    (hpost : w2.exec post = some w3)
    (hnoreg : w3.regs.countP (Registration.onChan id) =
      w2.regs.countP (Registration.onChan id)) :
    (∀ sc ∈ w3.mcw.chans, chanId sc.Chan ≠ some id) ∧
      (∀ sc ∈ w3.mcw.waiting, chanId sc.Chan ≠ some id) ∧
      ∃ later, w3.calls = w2.calls ++ later ∧
        ∀ call ∈ later, chanId call.src.Chan ≠ some id := by
  have hwait : w2.mcw.waiting = w1.mcw.waiting := by
    simp only [World.step] at hstep
    split at hstep
    · cases hstep
    · cases hr : runIter invoke w1.mcw i recv recvOk with
      | none => simp [hr] at hstep
      | some res =>
        obtain ⟨m1, cs⟩ := res
        simp only [hr, Option.some.injEq] at hstep
        subst hstep
        have hlt : i < w1.mcw.chans.length := by
          rcases Nat.lt_or_ge i w1.mcw.chans.length with h | h
          · exact h
          · rw [List.getElem?_eq_none h] at hsel
            cases hsel
        have hlen : m1.chans.length + 1 = w1.mcw.chans.length := by
          have := congrArg List.length hrem
          simp only [List.length_eraseIdx, hlt, if_true] at this
          omega
        rcases runIter_shape invoke w1.mcw i recv recvOk m1 cs hr with h | h | ⟨_, h⟩
        · rw [h] at hlen
          omega
        · rw [h] at hlen
          simp only [List.length_append] at hlen
          omega
        · show m1.waiting = w1.mcw.waiting
          rw [h]
  have hcnt := countP_eraseIdx_add (SelectCase.onChan id) w1.mcw.chans i _ hsel
  have hon : SelectCase.onChan id (recvCase (.chan d id)) = true := by
    simp [SelectCase.onChan, recvCase, chanId]
  simp only [hon, if_true] at hcnt
  rw [List.countP_append] at hsole
  have hzero : (w2.mcw.chans ++ w2.mcw.waiting).countP (SelectCase.onChan id) = 0 := by
    rw [List.countP_append, hrem, hwait]
    omega
  have habs : ∀ sc ∈ w2.mcw.chans ++ w2.mcw.waiting, chanId sc.Chan ≠ some id := by
    intro sc hsc
    have := (List.countP_eq_zero.1 hzero) sc hsc
    simpa [SelectCase.onChan] using this
  obtain ⟨h3, later, hlater, hlaterp⟩ :=
    absent_exec id post w2 w3 habs hpost (Nat.le_of_eq hnoreg)
  exact ⟨fun sc h => h3 sc (List.mem_append_left _ h),
    fun sc h => h3 sc (List.mem_append_right _ h), later, hlater, hlaterp⟩

theorem C4_witness :
    World.init.exec demoActs = some demoWorld ∧
      demoWorld.mcw.chans[1]? = some (recvCase (.chan .RecvDir 5)) ∧
      demoWorld.step (.iter 1 .nil false keepGoing) = some demoClosed ∧
      demoClosed.mcw.chans = demoWorld.mcw.chans.eraseIdx 1 ∧
      (demoWorld.mcw.chans ++ demoWorld.mcw.waiting).countP (SelectCase.onChan 5) = 1 ∧
      demoClosed.exec [.iter 1 (.value 3) true keepGoing] = some demoLater ∧
      demoLater.regs.countP (Registration.onChan 5) =
        demoClosed.regs.countP (Registration.onChan 5) ∧
      (∀ sc ∈ demoLater.mcw.chans, chanId sc.Chan ≠ some 5) ∧
      (∀ sc ∈ demoLater.mcw.waiting, chanId sc.Chan ≠ some 5) ∧
      ∃ later, demoLater.calls = demoClosed.calls ++ later ∧
        ∀ call ∈ later, chanId call.src.Chan ≠ some 5 :=
  ⟨rfl, rfl, rfl, rfl, by decide, rfl, by decide,
    C4_removed_source_never_returns [.iter 1 (.value 3) true keepGoing] demoWorld
      demoClosed demoLater 1 .nil false keepGoing .RecvDir 5 rfl rfl rfl (by decide) rfl
      (by decide)⟩

/-! ## Claims about `AddChan` -/

/-- C5. For every started reachable world that is not at capacity (registered sources plus
one still below 65534), every receive-only or bidirectional channel, every non-nil callback
and every param, `AddChan` returns nil, appends `(fn, p)` at the tail of the callback table
and a receive case for the channel at the tail of the pending table, and leaves the active
table (the wait set) and everything else unchanged. -/
theorem C5_successful_registration (w : World) (hw : Reachable w)
    (hstart : w.mcw.done = true) (hcap : registered w.mcw + 1 < 65534) (d : ChanDir)
    (id : Nat) (hd : d = ChanDir.RecvDir ∨ d = ChanDir.BothDir) (f : Callback) (p : Iface) :
    AddChan w.mcw (.chan d id) (some f) p =
        (none,
          { w.mcw with
            chanVal := w.mcw.chanVal ++ [{ p := p, fn := some f }]
            waiting := w.mcw.waiting ++ [recvCase (.chan d id)] }) ∧
      (AddChan w.mcw (.chan d id) (some f) p).2.chans = w.mcw.chans ∧
      recvCase (.chan d id) ∈ (AddChan w.mcw (.chan d id) (some f) p).2.waiting := by
  have hvalid : validArgs (.chan d id) (some f) = true :=
    (validArgs_iff _ _).2 ⟨d, id, f, rfl, by rcases hd with h | h <;> simp [h], rfl⟩
  have hlen : 1 ≤ w.mcw.chans.length := by
    rcases hw.inv.shape with ⟨h, _⟩ | ⟨_, _, h⟩
    · rw [hstart] at h
      cases h
    · exact h
  have hfull : ¬ w.mcw.chans.length + w.mcw.waiting.length + 1 ≥ 65535 := by
    rw [full_iff_registered _ hlen]
    exact not_not.2 hcap
  have hres : AddChan w.mcw (.chan d id) (some f) p =
      (none,
        { w.mcw with
          chanVal := w.mcw.chanVal ++ [{ p := p, fn := some f }]
          waiting := w.mcw.waiting ++ [recvCase (.chan d id)] }) := by
    rw [AddChan_of_valid _ _ _ _ hvalid, onceInit_of_done _ hstart]
    simp only [hfull, if_false]
  rw [hres]
  exact ⟨rfl, rfl, by simp⟩

theorem C5_witness :
    Reachable demoWorld ∧ demoWorld.mcw.done = true ∧ registered demoWorld.mcw + 1 < 65534 ∧
      (ChanDir.BothDir = ChanDir.RecvDir ∨ ChanDir.BothDir = ChanDir.BothDir) ∧
      AddChan demoWorld.mcw (.chan .BothDir 8) (some 3) (.value 30) =
        (none,
          { demoWorld.mcw with
            chanVal := demoWorld.mcw.chanVal ++ [{ p := .value 30, fn := some 3 }]
            waiting := demoWorld.mcw.waiting ++ [recvCase (.chan .BothDir 8)] }) ∧
      (AddChan demoWorld.mcw (.chan .BothDir 8) (some 3) (.value 30)).2.chans =
        demoWorld.mcw.chans ∧
      recvCase (.chan .BothDir 8) ∈
        (AddChan demoWorld.mcw (.chan .BothDir 8) (some 3) (.value 30)).2.waiting :=
  ⟨demoWorld_reachable, rfl, by decide, Or.inr rfl,
    C5_successful_registration demoWorld demoWorld_reachable rfl (by decide) .BothDir 8
      (Or.inr rfl) 3 (.value 30)⟩

/-- C6. On a started reachable watcher holding `n` registered sources, `AddChan` with a
receive-capable channel and a non-nil callback returns nil exactly when `n + 1 < 65534` and
`ErrReceiverFull` otherwise, and a failing call leaves the watcher untouched. Hence, for any
sequence `acts` of such registrations on a fresh watcher (no removals), exactly the first
65533 calls are recorded as successful, the watcher holds `min (length acts) 65533` sources
with every recorded entry in place, and one more registration returns nil when fewer than
65533 calls were made and `ErrReceiverFull`, changing nothing, otherwise. -/
theorem C6_capacity_threshold (w : World) (hw : Reachable w) (hstart : w.mcw.done = true)
    (d : ChanDir) (id : Nat) (hd : d = ChanDir.RecvDir ∨ d = ChanDir.BothDir) (f : Callback)
    (p : Iface) (acts : List Action) (hacts : ∀ a ∈ acts, a.validAdd = true) :
    ((AddChan w.mcw (.chan d id) (some f) p).1 =
        if registered w.mcw + 1 < 65534 then none else some .ErrReceiverFull) ∧
      ((AddChan w.mcw (.chan d id) (some f) p).1 ≠ none →
        (AddChan w.mcw (.chan d id) (some f) p).2 = w.mcw) ∧
      ∃ w1, World.init.exec acts = some w1 ∧
        w1.regs = (acts.take 65533).map Action.toReg ∧
        registered w1.mcw = min acts.length 65533 ∧
        (acts ≠ [] → w1.mcw = pendingOnly w1.regs) ∧
        (acts.length < 65533 → (AddChan w1.mcw (.chan d id) (some f) p).1 = none) ∧
        (65533 ≤ acts.length →
          AddChan w1.mcw (.chan d id) (some f) p = (some .ErrReceiverFull, w1.mcw)) := by
  have hvalid : validArgs (.chan d id) (some f) = true :=
    (validArgs_iff _ _).2 ⟨d, id, f, rfl, by rcases hd with h | h <;> simp [h], rfl⟩
  have hres := AddChan_started w hw.inv hstart _ _ p hvalid
  refine ⟨?_, ?_, ?_⟩
  · rw [hres]
    split <;> rfl
  · rw [hres]
    split
    · intro h
      exact absurd rfl h
    · intro _
      rfl
  · have hexec := exec_valid_adds acts hacts
    cases acts with
    | nil =>
      refine ⟨World.init, rfl, rfl, rfl, fun h => absurd rfl h, ?_, ?_⟩
      · intro _
        simp [World.init, AddChan_of_valid _ _ _ _ hvalid, onceInit]
      · intro h
        simp at h
    | cons a t =>
      simp only [List.isEmpty_cons, Bool.false_eq_true, if_false] at hexec
      have hreg : registered (pendingOnly (((a :: t).take 65533).map Action.toReg)) =
          min (a :: t).length 65533 := by
        simp only [registered, pendingOnly, List.length_map, List.length_take,
          List.length_singleton]
        omega
      have hinv1 : Inv { mcw := pendingOnly (((a :: t).take 65533).map Action.toReg)
                         regs := ((a :: t).take 65533).map Action.toReg
                         calls := [] } := Reachable.inv ⟨a :: t, hexec⟩
      have hres1 := AddChan_started _ hinv1 rfl (.chan d id) (some f) p hvalid
      refine ⟨_, hexec, rfl, hreg, fun _ => rfl, ?_, ?_⟩
      · intro hlt
        have : registered (pendingOnly (((a :: t).take 65533).map Action.toReg)) + 1 < 65534 := by
          rw [hreg]
          omega
        simp only at hres1 ⊢
        rw [hres1, if_pos this]
      · intro hge
        have : ¬ registered (pendingOnly (((a :: t).take 65533).map Action.toReg)) + 1 <
            65534 := by
          rw [hreg]
          omega
        simp only at hres1 ⊢
        rw [hres1, if_neg this]

theorem C6_witness :
    Reachable demoWorld ∧ demoWorld.mcw.done = true ∧
      (ChanDir.RecvDir = ChanDir.RecvDir ∨ ChanDir.RecvDir = ChanDir.BothDir) ∧
      (∀ a ∈ demoActs.take 2, a.validAdd = true) ∧
      ((AddChan demoWorld.mcw (.chan .RecvDir 9) (some 3) .nil).1 =
          if registered demoWorld.mcw + 1 < 65534 then none else some .ErrReceiverFull) ∧
        ((AddChan demoWorld.mcw (.chan .RecvDir 9) (some 3) .nil).1 ≠ none →
          (AddChan demoWorld.mcw (.chan .RecvDir 9) (some 3) .nil).2 = demoWorld.mcw) ∧
        ∃ w1, World.init.exec (demoActs.take 2) = some w1 ∧
          w1.regs = ((demoActs.take 2).take 65533).map Action.toReg ∧
          registered w1.mcw = min (demoActs.take 2).length 65533 ∧
          (demoActs.take 2 ≠ [] → w1.mcw = pendingOnly w1.regs) ∧
          ((demoActs.take 2).length < 65533 →
            (AddChan w1.mcw (.chan .RecvDir 9) (some 3) .nil).1 = none) ∧
          (65533 ≤ (demoActs.take 2).length →
            AddChan w1.mcw (.chan .RecvDir 9) (some 3) .nil =
              (some .ErrReceiverFull, w1.mcw)) :=
  have hacts : ∀ a ∈ demoActs.take 2, a.validAdd = true := by
    intro a ha
    simp only [demoActs, List.take, List.mem_cons, List.mem_singleton] at ha
    rcases ha with rfl | rfl | ha
    · rfl
    · rfl
    · cases ha
  ⟨demoWorld_reachable, rfl, Or.inl rfl, hacts,
    C6_capacity_threshold demoWorld demoWorld_reachable rfl .RecvDir 9 (Or.inl rfl) 3 .nil
      (demoActs.take 2) hacts⟩

/-- C7. In every reachable world and for every argument triple, if `AddChan` returns a
non-nil error, the error is one of `ErrParam`, `ErrNotChan`, `ErrNotReceivableChan`,
`ErrReceiverFull`, and the watcher afterwards (callback table, active table, pending table,
one-time-start flag, loop count) is exactly the watcher before the call. -/
theorem C7_failed_registration_is_atomic (w : World) (hw : Reachable w) (c : Iface)
    (fn : Option Callback) (p : Iface) (herr : (AddChan w.mcw c fn p).1 ≠ none) :
    (AddChan w.mcw c fn p).2 = w.mcw ∧
      ((AddChan w.mcw c fn p).1 = some .ErrParam ∨
        (AddChan w.mcw c fn p).1 = some .ErrNotChan ∨
        (AddChan w.mcw c fn p).1 = some .ErrNotReceivableChan ∨
        (AddChan w.mcw c fn p).1 = some .ErrReceiverFull) := by
  cases hv : validArgs c fn with
  | false =>
    refine ⟨(AddChan_of_invalid w.mcw c fn p hv).1, ?_⟩
    unfold validArgs at hv
    unfold AddChan
    by_cases h1 : c = Iface.nil ∨ fn = none
    · simp [h1]
    · by_cases h2 : kindOf c ≠ Kind.Chan
      · simp [h1, h2]
      · by_cases h3 : chanDirOf c &&& ChanDir.RecvDir.bits = 0
        · simp [h1, h2, h3]
        · simp [h1, h2, h3] at hv
  | true =>
    rw [AddChan_of_valid w.mcw c fn p hv] at herr ⊢
    rcases hw.inv.shape with ⟨_, h0⟩ | ⟨hd, _, _⟩
    · rw [h0] at herr
      simp [zeroWatcher, onceInit] at herr
    · rw [onceInit_of_done _ hd] at herr ⊢
      by_cases hfull : w.mcw.chans.length + w.mcw.waiting.length + 1 ≥ 65535
      · simp [hfull]
      · simp [hfull] at herr

theorem C7_witness :
    Reachable demoWorld ∧ (AddChan demoWorld.mcw chS (some 4) .nil).1 ≠ none ∧
      (AddChan demoWorld.mcw chS (some 4) .nil).2 = demoWorld.mcw ∧
      ((AddChan demoWorld.mcw chS (some 4) .nil).1 = some .ErrParam ∨
        (AddChan demoWorld.mcw chS (some 4) .nil).1 = some .ErrNotChan ∨
        (AddChan demoWorld.mcw chS (some 4) .nil).1 = some .ErrNotReceivableChan ∨
        (AddChan demoWorld.mcw chS (some 4) .nil).1 = some .ErrReceiverFull) :=
  ⟨demoWorld_reachable, by decide,
    C7_failed_registration_is_atomic demoWorld demoWorld_reachable chS (some 4) .nil
      (by decide)⟩

/-- C8, as stated, fails for a nil channel passed as the source: the interface holding it
is not nil, so the first guard lets it through; with a non-nil callback `AddChan` on the
zero-value watcher returns nil, sets the start flag, starts the loop and initialises the
tables. -/
theorem C8_counterexample :
    isNilChan (nilChan .BothDir) = true ∧
      AddChan zeroWatcher (nilChan .BothDir) (some 1) (.value 9) =
        (none,
          { done := true
            running := 1
            chanVal := [zeroChan, { p := .value 9, fn := some 1 }]
            chans := [defaultCase]
            waiting := [recvCase (nilChan .BothDir)] }) ∧
      (AddChan zeroWatcher (nilChan .BothDir) (some 1) (.value 9)).1 ≠ some .ErrParam ∧
      (AddChan zeroWatcher (nilChan .BothDir) (some 1) (.value 9)).2.done ≠
        zeroWatcher.done := by
  decide

/-- C8, amended. For every watcher state and every param, `AddChan` called with the nil
interface as source (an untyped nil) or with a nil callback returns `ErrParam` and leaves
the watcher exactly as it was: the start flag and loop count are untouched and no table is
initialised or changed. -/
theorem C8_nil_arguments_rejected (mcw : ChanWatcher) (c : Iface) (fn : Option Callback)
    (p : Iface) (h : c = Iface.nil ∨ fn = none) :
    AddChan mcw c fn p = (some .ErrParam, mcw) ∧ (AddChan mcw c fn p).2.done = mcw.done ∧
      (AddChan mcw c fn p).2.running = mcw.running := by
  have : AddChan mcw c fn p = (some .ErrParam, mcw) := by
    unfold AddChan
    simp [h]
  rw [this]
  exact ⟨rfl, rfl, rfl⟩

theorem C8_witness :
    (chA = Iface.nil ∨ (none : Option Callback) = none) ∧
      AddChan zeroWatcher chA none (.value 1) = (some .ErrParam, zeroWatcher) ∧
      (AddChan zeroWatcher chA none (.value 1)).2.done = zeroWatcher.done ∧
      (AddChan zeroWatcher chA none (.value 1)).2.running = zeroWatcher.running :=
  ⟨Or.inr rfl, C8_nil_arguments_rejected zeroWatcher chA none (.value 1) (Or.inr rfl)⟩

/-- C9, as stated, fails: with a nil callback a non-channel source yields `ErrParam`, not
`ErrNotChan`, and a send-only channel yields `ErrParam`, not `ErrNotReceivableChan`. -/
theorem C9_counterexample :
    (AddChan zeroWatcher (.value 42) none .nil).1 = some .ErrParam ∧
      (AddChan zeroWatcher (.value 42) none .nil).1 ≠ some .ErrNotChan ∧
      (AddChan zeroWatcher chS none .nil).1 = some .ErrParam ∧
      (AddChan zeroWatcher chS none .nil).1 ≠ some .ErrNotReceivableChan := by
  decide

/-- C9, amended. For every call of `AddChan` with a non-nil callback: if the source is a
non-channel value the result is `ErrNotChan`, and if the source is a send-only channel the
result is `ErrNotReceivableChan`, whatever the param and the watcher state are; in both
cases the watcher is left unchanged. -/
theorem C9_source_kind_validated (mcw : ChanWatcher) (n id : Nat) (f : Callback)
    (p : Iface) :
    AddChan mcw (.value n) (some f) p = (some .ErrNotChan, mcw) ∧
      AddChan mcw (.chan .SendDir id) (some f) p = (some .ErrNotReceivableChan, mcw) := by
  constructor <;> simp [AddChan, kindOf, chanDirOf, ChanDir.bits]

/-- C10. In every execution from the zero-value watcher, the one-time initialisation has
happened exactly when some earlier `AddChan` call passed the argument checks: the start flag
is set and exactly one loop is running in that case, and otherwise the watcher is still the
zero value. A call on a not-yet-started watcher initialises it (placeholder entry, idle
case, loop started, then the new entry) when its arguments pass the checks and changes
nothing when they do not; a call on a started watcher, successful or not, starts no second
loop, keeps the flag, leaves the active table alone and only extends the callback and
pending tables at their tails. -/
theorem C10_loop_started_once (acts : List Action) (w : World)
    (hexec : World.init.exec acts = some w) (c : Iface) (fn : Option Callback) (p : Iface) :
    w.mcw.done = acts.any Action.validAdd ∧
      w.mcw.running = (if acts.any Action.validAdd then 1 else 0) ∧
      (w.mcw.done = false → w.mcw = zeroWatcher) ∧
      (w.mcw.done = false → validArgs c fn = true →
        onceInit w.mcw =
            { done := true, running := 1, chanVal := [zeroChan], chans := [defaultCase],
              waiting := [] } ∧
          (AddChan w.mcw c fn p).2 =
            { done := true, running := 1, chanVal := [zeroChan, { p := p, fn := fn }],
              chans := [defaultCase], waiting := [recvCase c] }) ∧
      (w.mcw.done = false → validArgs c fn = false → (AddChan w.mcw c fn p).2 = w.mcw) ∧
      (w.mcw.done = true →
        (AddChan w.mcw c fn p).2.done = true ∧
          (AddChan w.mcw c fn p).2.running = 1 ∧
          (AddChan w.mcw c fn p).2.chans = w.mcw.chans ∧
          w.mcw.chanVal <+: (AddChan w.mcw c fn p).2.chanVal ∧
          w.mcw.waiting <+: (AddChan w.mcw c fn p).2.waiting) := by
  have hinv : Inv w := Reachable.inv ⟨acts, hexec⟩
  have hdone := exec_done World.init acts w hexec
  simp only [World.init, Bool.false_or] at hdone
  refine ⟨hdone, ?_, ?_, ?_, ?_, ?_⟩
  · rw [← hdone]
    rcases hinv.shape with ⟨h, h0⟩ | ⟨h, hrun, _⟩
    · rw [h, h0]
      rfl
    · rw [h, hrun]
      rfl
  · intro hd
    rcases hinv.shape with ⟨_, h0⟩ | ⟨h, _, _⟩
    · exact h0
    · rw [hd] at h
      cases h
  · intro hd hv
    have h0 : w.mcw = zeroWatcher := by
      rcases hinv.shape with ⟨_, h0⟩ | ⟨h, _, _⟩
      · exact h0
      · rw [hd] at h
        cases h
    rw [AddChan_of_valid _ _ _ _ hv, h0]
    simp [zeroWatcher, onceInit]
  · intro _ hv
    exact (AddChan_of_invalid _ _ _ _ hv).1
  · intro hd
    have hrun : w.mcw.running = 1 := by
      rcases hinv.shape with ⟨h, _⟩ | ⟨_, h, _⟩
      · rw [hd] at h
        cases h
      · exact h
    cases hv : validArgs c fn with
    | false =>
      rw [(AddChan_of_invalid _ _ _ _ hv).1]
      exact ⟨hd, hrun, rfl, List.prefix_refl _, List.prefix_refl _⟩
    | true =>
      rw [AddChan_started w hinv hd c fn p hv]
      split
      · exact ⟨hd, hrun, rfl, List.prefix_append _ _, List.prefix_append _ _⟩
      · exact ⟨hd, hrun, rfl, List.prefix_refl _, List.prefix_refl _⟩

theorem C10_witness :
    World.init.exec demoActs = some demoWorld ∧
      demoWorld.mcw.done = demoActs.any Action.validAdd ∧
      demoWorld.mcw.running = (if demoActs.any Action.validAdd then 1 else 0) ∧
      (demoWorld.mcw.done = false → demoWorld.mcw = zeroWatcher) ∧
      (demoWorld.mcw.done = false → validArgs chA (some 5) = true →
        onceInit demoWorld.mcw =
            { done := true, running := 1, chanVal := [zeroChan], chans := [defaultCase],
              waiting := [] } ∧
          (AddChan demoWorld.mcw chA (some 5) .nil).2 =
            { done := true, running := 1, chanVal := [zeroChan, { p := .nil, fn := some 5 }],
              chans := [defaultCase], waiting := [recvCase chA] }) ∧
      (demoWorld.mcw.done = false → validArgs chA (some 5) = false →
        (AddChan demoWorld.mcw chA (some 5) .nil).2 = demoWorld.mcw) ∧
      (demoWorld.mcw.done = true →
        (AddChan demoWorld.mcw chA (some 5) .nil).2.done = true ∧
          (AddChan demoWorld.mcw chA (some 5) .nil).2.running = 1 ∧
          (AddChan demoWorld.mcw chA (some 5) .nil).2.chans = demoWorld.mcw.chans ∧
          demoWorld.mcw.chanVal <+: (AddChan demoWorld.mcw chA (some 5) .nil).2.chanVal ∧
          demoWorld.mcw.waiting <+: (AddChan demoWorld.mcw chA (some 5) .nil).2.waiting) :=
  ⟨rfl, C10_loop_started_once demoActs demoWorld rfl chA (some 5) .nil⟩

/-! ## Claims about the invariants of the tables -/

/-- C11. In every world reachable from the zero-value watcher by successful or failed
`AddChan` calls, idle merges, value deliveries and removals: the callback table is as long
as the active table and the pending table together; for every non-idle position `i` of the
active table, entry `i` of the callback table is the (callback, param) pair of a successful
`AddChan` call that registered the source at active position `i`; and for every position `j`
of the pending table, entry `len(chans) + j` of the callback table is the pair of a
successful `AddChan` call that registered the pending source `j`. -/
theorem C11_tables_aligned (w : World) (hw : Reachable w) :
    w.mcw.chanVal.length = w.mcw.chans.length + w.mcw.waiting.length ∧
      (∀ (i : Nat) (src : SelectCase), w.mcw.chans[i]? = some src →
        src.Dir ≠ SelectDir.SelectDefault →
        ∃ r, r ∈ w.regs ∧ src = recvCase r.c ∧ w.mcw.chanVal[i]? = some r.toChan) ∧
      (∀ (j : Nat) (src : SelectCase), w.mcw.waiting[j]? = some src →
        ∃ r, r ∈ w.regs ∧ src = recvCase r.c ∧
          w.mcw.chanVal[w.mcw.chans.length + j]? = some r.toChan) := by
  have hinv := hw.inv
  refine ⟨hinv.lengths.1, ?_, fun j src h => hinv.lookup_pending j src h⟩
  intro i src hsel hdir
  have hi : 1 ≤ i := by
    rcases Nat.eq_zero_or_pos i with h0 | h0
    · subst h0
      rcases hinv.shape with ⟨_, hz⟩ | ⟨hd, _, _⟩
      · rw [hz] at hsel
        simp [zeroWatcher] at hsel
      · have h := (hinv.idle_slot hd).1
        rw [hsel] at h
        simp only [Option.some.injEq] at h
        rw [h] at hdir
        exact absurd rfl hdir
    · exact h0
  obtain ⟨r, f, hmem, hf, hsrc, hv⟩ := hinv.lookup i src hi hsel
  exact ⟨r, hmem, hsrc, by rw [hv, Registration.toChan, hf]⟩

theorem C11_witness :
    Reachable demoPending ∧
      demoPending.mcw.chanVal.length =
        demoPending.mcw.chans.length + demoPending.mcw.waiting.length ∧
      (∀ (i : Nat) (src : SelectCase), demoPending.mcw.chans[i]? = some src →
        src.Dir ≠ SelectDir.SelectDefault →
        ∃ r, r ∈ demoPending.regs ∧ src = recvCase r.c ∧
          demoPending.mcw.chanVal[i]? = some r.toChan) ∧
      (∀ (j : Nat) (src : SelectCase), demoPending.mcw.waiting[j]? = some src →
        ∃ r, r ∈ demoPending.regs ∧ src = recvCase r.c ∧
          demoPending.mcw.chanVal[demoPending.mcw.chans.length + j]? = some r.toChan) :=
  ⟨⟨demoPendingActs, rfl⟩, C11_tables_aligned demoPending ⟨demoPendingActs, rfl⟩⟩

/-- C12. For every watcher state, when an iteration of `run` selects a case whose direction
is `SelectDefault` (the idle case), the new active table is the old active table followed
by the whole old pending table in the same order, the new pending table is empty, the
callback table and the rest of the state are unchanged, and no callback is invoked. -/
theorem C12_idle_branch_merges (mcw : ChanWatcher) (chosen : Nat) (recv : Iface)
    (recvOk : Bool) (invoke : Invoke) (c : SelectCase) (hsel : mcw.chans[chosen]? = some c)
    (hdir : c.Dir = SelectDir.SelectDefault) :
    ∃ mcw1, runIter invoke mcw chosen recv recvOk = some (mcw1, []) ∧
      mcw1.chans = mcw.chans ++ mcw.waiting ∧ mcw1.waiting = [] ∧
      mcw1.chanVal = mcw.chanVal ∧ mcw1.done = mcw.done ∧ mcw1.running = mcw.running :=
  ⟨_, runIter_idle invoke mcw chosen recv recvOk c hsel hdir, rfl, rfl, rfl, rfl, rfl⟩

theorem C12_witness :
    demoPending.mcw.chans[0]? = some defaultCase ∧
      defaultCase.Dir = SelectDir.SelectDefault ∧
      ∃ mcw1, runIter quitNow demoPending.mcw 0 .nil false = some (mcw1, []) ∧
        mcw1.chans = demoPending.mcw.chans ++ demoPending.mcw.waiting ∧ mcw1.waiting = [] ∧
        mcw1.chanVal = demoPending.mcw.chanVal ∧ mcw1.done = demoPending.mcw.done ∧
        mcw1.running = demoPending.mcw.running :=
  ⟨rfl, rfl, C12_idle_branch_merges demoPending.mcw 0 .nil false quitNow defaultCase rfl rfl⟩

/-- C13. In every world reachable from the zero-value watcher by `AddChan` calls and loop
iterations, the number of registered sources (pending plus active, not counting the idle
slot) is strictly below 65534, and the case list handed to the wait, the active table, has
at most 65534 entries. -/
theorem C13_capacity_bound_invariant (w : World) (hw : Reachable w) :
    registered w.mcw < 65534 ∧ w.mcw.chans.length ≤ 65534 := by
  have h := hw.inv.lengths.2
  unfold registered
  rcases hw.inv.shape with ⟨_, h0⟩ | ⟨_, _, h1⟩
  · simp [h0, zeroWatcher]
  · omega

theorem C13_witness :
    Reachable demoPending ∧ registered demoPending.mcw < 65534 ∧
      demoPending.mcw.chans.length ≤ 65534 :=
  ⟨⟨demoPendingActs, rfl⟩, C13_capacity_bound_invariant demoPending ⟨demoPendingActs, rfl⟩⟩

/-- C14. In every reachable world in which `AddChan` with a receive-capable channel and a
non-nil callback returns `ErrReceiverFull`: after any one iteration of `run` that removes a
source (the active table gets shorter, whether by closure or by a non-nil callback return),
the same `AddChan` call returns nil; and such an iteration exists for every active source,
both when the wait reports closure and when a value is delivered and the callback returns
a non-nil error. -/
theorem C14_capacity_error_is_transient (w : World) (hw : Reachable w) (d : ChanDir)
    (id : Nat) (hd : d = ChanDir.RecvDir ∨ d = ChanDir.BothDir) (f : Callback) (p : Iface)
    (hfull : (AddChan w.mcw (.chan d id) (some f) p).1 = some .ErrReceiverFull) :
    (∀ (invoke : Invoke) (chosen : Nat) (recv : Iface) (recvOk : Bool) (m1 : ChanWatcher)
        (cs : List Call), runIter invoke w.mcw chosen recv recvOk = some (m1, cs) →
        m1.chans.length < w.mcw.chans.length →
        (AddChan m1 (.chan d id) (some f) p).1 = none) ∧
      (∀ (i : Nat) (src : SelectCase) (invoke : Invoke) (recv : Iface) (recvOk : Bool),
        1 ≤ i → w.mcw.chans[i]? = some src →
        (recvOk = false ∨ ∀ g ev, invoke g ev ≠ none) →
        ∃ m1 cs, runIter invoke w.mcw i recv recvOk = some (m1, cs) ∧
          m1.chans.length < w.mcw.chans.length) := by
  have hinv := hw.inv
  have hvalid : validArgs (.chan d id) (some f) = true :=
    (validArgs_iff _ _).2 ⟨d, id, f, rfl, by rcases hd with h | h <;> simp [h], rfl⟩
  have hstart : w.mcw.done = true := by
    rcases hinv.shape with ⟨_, h0⟩ | ⟨h, _, _⟩
    · rw [AddChan_of_valid _ _ _ _ hvalid, h0] at hfull
      simp [zeroWatcher, onceInit] at hfull
    · exact h
  constructor
  · intro invoke chosen recv recvOk m1 cs hiter hshort
    rcases runIter_shape invoke w.mcw chosen recv recvOk m1 cs hiter with h | h | ⟨hlt, h⟩
    · rw [h] at hshort
      omega
    · rw [h] at hshort
      simp only [List.length_append] at hshort
      omega
    · have hcap := hinv.lengths.2
      have hlen : m1.chans.length + 1 = w.mcw.chans.length := by
        rw [h]
        simp only [List.length_eraseIdx, hlt, if_true]
        omega
      have hwait : m1.waiting = w.mcw.waiting := by rw [h]
      have hdone : m1.done = true := by rw [h]; exact hstart
      rw [AddChan_of_valid _ _ _ _ hvalid, onceInit_of_done _ hdone]
      have hnot : ¬ m1.chans.length + m1.waiting.length + 1 ≥ 65535 := by
        rw [hwait]
        omega
      rw [if_neg hnot]
  · intro i src invoke recv recvOk hi hsel hret
    obtain ⟨r, g, _, _, hsrc, hv⟩ := hinv.lookup i src hi hsel
    have hlt : i < w.mcw.chans.length := by
      rcases Nat.lt_or_ge i w.mcw.chans.length with h | h
      · exact h
      · rw [List.getElem?_eq_none h] at hsel
        cases hsel
    have hshort : (w.mcw.chans.eraseIdx i).length < w.mcw.chans.length := by
      simp only [List.length_eraseIdx, hlt, if_true]
      omega
    rw [runIter_recv invoke w.mcw i recv recvOk r.c g r.p (hsrc ▸ hsel) hv]
    cases recvOk with
    | false => exact ⟨_, _, rfl, hshort⟩
    | true =>
      rcases hret with h | h
      · cases h
      · cases hcall : invoke g { Val := recv, Ok := true, P := r.p } with
        | none => exact absurd hcall (h _ _)
        | some e =>
          exact ⟨{ w.mcw with
                   chans := w.mcw.chans.eraseIdx i
                   chanVal := w.mcw.chanVal.eraseIdx i },
            [{ src := recvCase r.c, fn := g, ev := { Val := recv, Ok := true, P := r.p },
               seen := w.mcw }], by simp [hcall], hshort⟩

theorem C14_witness :
    Reachable fullWorld ∧ (ChanDir.BothDir = ChanDir.RecvDir ∨ ChanDir.BothDir = ChanDir.BothDir) ∧
      (AddChan fullWorld.mcw (.chan .BothDir 9) (some 3) .nil).1 = some .ErrReceiverFull ∧
      (∀ (invoke : Invoke) (chosen : Nat) (recv : Iface) (recvOk : Bool) (m1 : ChanWatcher)
          (cs : List Call), runIter invoke fullWorld.mcw chosen recv recvOk = some (m1, cs) →
          m1.chans.length < fullWorld.mcw.chans.length →
          (AddChan m1 (.chan .BothDir 9) (some 3) .nil).1 = none) ∧
      (∀ (i : Nat) (src : SelectCase) (invoke : Invoke) (recv : Iface) (recvOk : Bool),
        1 ≤ i → fullWorld.mcw.chans[i]? = some src →
        (recvOk = false ∨ ∀ g ev, invoke g ev ≠ none) →
        ∃ m1 cs, runIter invoke fullWorld.mcw i recv recvOk = some (m1, cs) ∧
          m1.chans.length < fullWorld.mcw.chans.length) :=
  have hfull : (AddChan fullWorld.mcw (.chan .BothDir 9) (some 3) .nil).1 =
      some .ErrReceiverFull := by
    rw [AddChan_started fullWorld fullWorld_reachable.inv rfl (.chan .BothDir 9) (some 3) .nil
      rfl, fullWorld_registered, if_neg (by omega)]
  ⟨fullWorld_reachable, Or.inr rfl, hfull,
    C14_capacity_error_is_transient fullWorld fullWorld_reachable .BothDir 9 (Or.inr rfl) 3
      .nil hfull⟩

/-- C15. The result of `AddChan` follows a fixed order of checks. In every watcher state:
a nil source or a nil callback gives `ErrParam`; otherwise a source that is not a channel
gives `ErrNotChan`; otherwise a send-only channel gives `ErrNotReceivableChan`; in these
three cases the watcher is returned unchanged, so nothing is started, even when the watcher
is at capacity. Otherwise, in every reachable world, the call gives `ErrReceiverFull` when
the registered sources plus one reach 65534, and nil when they do not. -/
theorem C15_fixed_order_of_checks (w : World) (hw : Reachable w) (mcw : ChanWatcher)
    (c : Iface) (fn : Option Callback) (p : Iface) :
    (c = Iface.nil ∨ fn = none → AddChan mcw c fn p = (some .ErrParam, mcw)) ∧
      (∀ (n : Nat) (f : Callback), c = .value n → fn = some f →
        AddChan mcw c fn p = (some .ErrNotChan, mcw)) ∧
      (∀ (id : Nat) (f : Callback), c = .chan .SendDir id → fn = some f →
        AddChan mcw c fn p = (some .ErrNotReceivableChan, mcw)) ∧
      (∀ (d : ChanDir) (id : Nat) (f : Callback), c = .chan d id → d ≠ ChanDir.SendDir →
        fn = some f →
        (AddChan w.mcw c fn p).1 =
          if 65534 ≤ registered w.mcw + 1 then some .ErrReceiverFull else none) := by
  refine ⟨?_, ?_, ?_, ?_⟩
  · intro h
    unfold AddChan
    simp [h]
  · intro n f hc hf
    subst hc hf
    simp [AddChan, kindOf]
  · intro id f hc hf
    subst hc hf
    simp [AddChan, kindOf, chanDirOf, ChanDir.bits]
  · intro d id f hc hd hf
    have hvalid : validArgs c fn = true := (validArgs_iff _ _).2 ⟨d, id, f, hc, hd, hf⟩
    rcases hw.inv.shape with ⟨_, h0⟩ | ⟨hstart, _, _⟩
    · have hreg : ¬ 65534 ≤ registered w.mcw + 1 := by
        rw [h0]
        simp [registered, zeroWatcher]
      rw [if_neg hreg, AddChan_of_valid _ _ _ _ hvalid, h0]
      simp [zeroWatcher, onceInit]
    · rw [AddChan_started w hw.inv hstart c fn p hvalid]
      by_cases hreg : registered w.mcw + 1 < 65534
      · rw [if_pos hreg, if_neg (by omega)]
      · rw [if_neg hreg, if_pos (by omega)]

theorem C15_witness :
    Reachable fullWorld ∧
      (chS = Iface.nil ∨ some 3 = (none : Option Callback) →
        AddChan fullWorld.mcw chS (some 3) .nil = (some .ErrParam, fullWorld.mcw)) ∧
      (∀ (n : Nat) (f : Callback), chS = .value n → some 3 = some f →
        AddChan fullWorld.mcw chS (some 3) .nil = (some .ErrNotChan, fullWorld.mcw)) ∧
      (∀ (id : Nat) (f : Callback), chS = .chan .SendDir id → some 3 = some f →
        AddChan fullWorld.mcw chS (some 3) .nil =
          (some .ErrNotReceivableChan, fullWorld.mcw)) ∧
      (∀ (d : ChanDir) (id : Nat) (f : Callback), chS = .chan d id →
        d ≠ ChanDir.SendDir → some 3 = some f →
        (AddChan fullWorld.mcw chS (some 3) .nil).1 =
          if 65534 ≤ registered fullWorld.mcw + 1 then some .ErrReceiverFull else none) :=
  ⟨fullWorld_reachable,
    C15_fixed_order_of_checks fullWorld fullWorld_reachable fullWorld.mcw chS (some 3) .nil⟩

/-- C16. In every reachable world after the first validated `AddChan` (start flag set):
position 0 of the active table is the idle case and every other position holds a receive
case, so the idle case is the only default case. For every index `chosen` the wait can
return (`chosen < len(chans)`): `chanVal[chosen]` exists, the two slice removals at
`chosen` are within bounds, and an iteration of `run` with any outcome of the wait and any
callback answers does not panic; after it the idle case is still at position 0, and if the
iteration removed an entry then `chosen >= 1`. -/
theorem C16_idle_slot_and_bounds (w : World) (hw : Reachable w)
    (hstart : w.mcw.done = true) :
    w.mcw.chans[0]? = some defaultCase ∧
      (∀ (i : Nat) (src : SelectCase), 1 ≤ i → w.mcw.chans[i]? = some src →
        src.Dir = SelectDir.SelectRecv) ∧
      (∀ chosen : Nat, chosen < w.mcw.chans.length →
        chosen < w.mcw.chanVal.length ∧
          (∃ m v, removeAt w.mcw chosen = some (m, v)) ∧
          ∀ (invoke : Invoke) (recv : Iface) (recvOk : Bool),
            ∃ m1 cs, runIter invoke w.mcw chosen recv recvOk = some (m1, cs) ∧
              m1.chans[0]? = some defaultCase ∧
              (m1.chans.length < w.mcw.chans.length → 1 ≤ chosen)) := by
  have hinv := hw.inv
  obtain ⟨h0, hrecv⟩ := hinv.idle_slot hstart
  refine ⟨h0, hrecv, ?_⟩
  intro chosen hlt
  have hcv : chosen < w.mcw.chanVal.length := by
    rw [hinv.lengths.1]
    omega
  refine ⟨hcv, ⟨_, _, removeAt_eq w.mcw chosen _ hlt (List.getElem?_eq_getElem hcv)⟩, ?_⟩
  intro invoke recv recvOk
  cases chosen with
  | zero =>
    refine ⟨_, _, runIter_default invoke w.mcw 0 recv recvOk h0, ?_, ?_⟩
    · show (w.mcw.chans ++ w.mcw.waiting)[0]? = some defaultCase
      rw [List.getElem?_append_left hlt, h0]
    · intro hshort
      simp only [List.length_append] at hshort
      omega
  | succ j =>
    have hsel : w.mcw.chans[j + 1]? = some (w.mcw.chans[j + 1]) := List.getElem?_eq_getElem hlt
    obtain ⟨r, g, _, _, hsrc, hv⟩ := hinv.lookup (j + 1) _ (by omega) hsel
    have herased : (w.mcw.chans.eraseIdx (j + 1))[0]? = some defaultCase := by
      rw [List.getElem?_eraseIdx_of_lt _ _ _ (by omega), h0]
    rw [runIter_recv invoke w.mcw (j + 1) recv recvOk r.c g r.p (hsrc ▸ hsel) hv]
    cases recvOk with
    | false => exact ⟨_, _, rfl, herased, fun _ => by omega⟩
    | true =>
      cases hcall : invoke g { Val := recv, Ok := true, P := r.p } with
      | none =>
        exact ⟨w.mcw, [{ src := recvCase r.c, fn := g,
                         ev := { Val := recv, Ok := true, P := r.p }, seen := w.mcw }],
          by simp [hcall], h0, fun _ => by omega⟩
      | some e =>
        exact ⟨{ w.mcw with
                 chans := w.mcw.chans.eraseIdx (j + 1)
                 chanVal := w.mcw.chanVal.eraseIdx (j + 1) },
          [{ src := recvCase r.c, fn := g, ev := { Val := recv, Ok := true, P := r.p },
             seen := w.mcw }], by simp [hcall], herased, fun _ => by omega⟩

theorem C16_witness :
    Reachable demoPending ∧ demoPending.mcw.done = true ∧
      demoPending.mcw.chans[0]? = some defaultCase ∧
      (∀ (i : Nat) (src : SelectCase), 1 ≤ i → demoPending.mcw.chans[i]? = some src →
        src.Dir = SelectDir.SelectRecv) ∧
      (∀ chosen : Nat, chosen < demoPending.mcw.chans.length →
        chosen < demoPending.mcw.chanVal.length ∧
          (∃ m v, removeAt demoPending.mcw chosen = some (m, v)) ∧
          ∀ (invoke : Invoke) (recv : Iface) (recvOk : Bool),
            ∃ m1 cs, runIter invoke demoPending.mcw chosen recv recvOk = some (m1, cs) ∧
              m1.chans[0]? = some defaultCase ∧
              (m1.chans.length < demoPending.mcw.chans.length → 1 ≤ chosen)) :=
  ⟨⟨demoPendingActs, rfl⟩, rfl,
    C16_idle_slot_and_bounds demoPending ⟨demoPendingActs, rfl⟩ rfl⟩

end ChanWatcherModel
